import Mathlib

attribute [local semireducible] Rat.mul Rat.add Rat.sub Rat.inv Rat.ofScientific

/-!
Brain Synapse: a shallow embedding of the memory engine.

This file embeds the core of the `brain_synapse` memory engine
(`skill.js`, `observer.js`, `local_file_search.js`) in Lean 4 and proves
or refutes the specification claims about it.

Modelling conventions:

* JavaScript objects keyed by strings (the hot store `this.weights`, the
  latent store `this.latentWeights`, a record's `synapses` map) are
  association lists `List (String × _)` in insertion order, which is the
  enumeration order of `Object.keys` for the non-numeric keys this
  program uses.  Property assignment updates the binding in place or
  appends a fresh one; `delete` removes it.
* JavaScript numbers holding weights and confidences are modelled as `ℚ`
  (the program only ever adds, subtracts, multiplies and divides small
  decimal fractions, which is exact in both doubles of this magnitude
  and in `ℚ`).  Counters and timestamps are `Nat`.
* A record field that some creation sites leave undefined is an
  `Option`; `none` is JavaScript `undefined`.
* `Date.now()` is passed in as an explicit `now : Nat` argument.
* `Math.random` id suffixes carry no information used anywhere; an
  observation id is modelled as `"obs_" ++ toString now`.
* `Math.log` (used only in the dynamic re-ranking of search results) is a
  float; it is threaded through as an explicit function argument `logFn`
  so that every theorem quantifying over it covers the real behaviour.
-/

namespace BrainSynapse

/-! ## JavaScript string primitives -/

/-- JS `String.prototype.toLowerCase` restricted to ASCII case mapping,
which is all this code base's keys exercise (ASCII words and CJK
ideographs; the latter have no case). -/
def lowerChar (c : Char) : Char :=
  if 'A' ≤ c ∧ c ≤ 'Z' then Char.ofNat (c.toNat + 32) else c

def jsToLower (s : String) : String :=
  String.mk (s.toList.map lowerChar)

def listStartsWith (needle hay : List Char) : Bool :=
  match needle, hay with
  | [], _ => true
  | _, [] => false
  | n :: ns, h :: hs => n = h && listStartsWith ns hs

def listIsInfix (needle : List Char) : List Char → Bool
  | [] => needle.isEmpty
  | c :: cs => listStartsWith needle (c :: cs) || listIsInfix needle cs

/-- JS `a.includes(b)`: `b` is a contiguous substring of `a`.  Note that
`a.includes("")` is `true` for every `a`. -/
def jsIncludes (a b : String) : Bool :=
  listIsInfix b.toList a.toList

/-- JS `String.prototype.trim` (ASCII whitespace suffices for the inputs
involved). -/
def jsTrim (s : String) : String :=
  String.mk ((s.toList.dropWhile Char.isWhitespace).reverse.dropWhile Char.isWhitespace |>.reverse)

/-- JS `s.substring(0, n)` (all characters involved are in the BMP, so
code units coincide with characters). -/
def jsSubstring0 (s : String) (n : Nat) : String :=
  String.mk (s.toList.take n)

/-- Split a string into lines at `'\n'`, JS `content.split('\n')`. -/
def jsLinesAux (cur : List Char) : List Char → List (List Char)
  | [] => [cur.reverse]
  | c :: cs => if c = '\n' then cur.reverse :: jsLinesAux [] cs else jsLinesAux (c :: cur) cs

def jsLines (s : String) : List String :=
  (jsLinesAux [] s.toList).map String.mk

/-- Maximal runs of characters satisfying `p`, in order (the matches of a
regex such as `/[a-zA-Z]{2,}/g` are the runs of length ≥ 2). -/
def runsAux (p : Char → Bool) (cur : List Char) : List Char → List (List Char)
  | [] => if cur.isEmpty then [] else [cur.reverse]
  | c :: cs =>
      if p c then runsAux p (c :: cur) cs
      else if cur.isEmpty then runsAux p [] cs
      else cur.reverse :: runsAux p [] cs

def runsOf (p : Char → Bool) (s : String) (minLen : Nat) : List String :=
  ((runsAux p [] s.toList).filter (fun r => minLen ≤ r.length)).map String.mk

def isAsciiLetter (c : Char) : Bool :=
  ('a' ≤ c ∧ c ≤ 'z') ∨ ('A' ≤ c ∧ c ≤ 'Z')

def isDigitChar (c : Char) : Bool :=
  '0' ≤ c ∧ c ≤ '9'

/-- The CJK range `[一-龥]` used throughout the source. -/
def isCJK (c : Char) : Bool :=
  0x4e00 ≤ c.toNat ∧ c.toNat ≤ 0x9fa5

/-- JS `\w` word characters. -/
def isWordChar (c : Char) : Bool :=
  isAsciiLetter c ∨ isDigitChar c ∨ c = '_'

/-- `key.replace(/\W+/g, '-')`: every maximal run of non-word characters
becomes a single hyphen. -/
def sanitizeAux (prevSep : Bool) : List Char → List Char
  | [] => []
  | c :: cs =>
      if isWordChar c then c :: sanitizeAux false cs
      else if prevSep then sanitizeAux true cs
      else '-' :: sanitizeAux true cs

def sanitizeKey (s : String) : String :=
  String.mk (sanitizeAux false s.toList)

/-- JS `query.split(/\W+/)`: the segments between maximal non-word runs,
including an empty leading/trailing segment when the string starts/ends
with a separator, and `[""]` for the empty string. -/
def jsSplitNonWordAux (cur : List Char) (prevSep : Bool) : List Char → List (List Char)
  | [] => [cur.reverse]
  | c :: cs =>
      if isWordChar c then jsSplitNonWordAux (c :: cur) false cs
      else if prevSep then jsSplitNonWordAux [] true cs
      else cur.reverse :: jsSplitNonWordAux [] true cs

def jsSplitNonWord (s : String) : List String :=
  (jsSplitNonWordAux [] false s.toList).map String.mk

/-- Insert into a JS `Set` (ordered, deduplicating). -/
def addUnique (l : List String) (s : String) : List String :=
  if s ∈ l then l else l ++ [s]

/-! ## Stable sorting with a JS comparator

`Array.prototype.sort` is stable; `jsSort lt` places `a` before `b`
exactly when the comparator says `a` strictly precedes `b`
(`comparator a b < 0` becomes `lt a b = true`), keeping the original
order of elements that compare equal. -/

def jsInsert (lt : α → α → Bool) (a : α) : List α → List α
  | [] => [a]
  | b :: l => if lt b a then b :: jsInsert lt a l else a :: b :: l

def jsSort (lt : α → α → Bool) (l : List α) : List α :=
  l.foldr (jsInsert lt) []

/-! ## The synapse record and the two stores

One record type with optional fields models the duck-typed JS records:
a field is `none` exactly when the corresponding creation site leaves it
undefined.  (`refs` is kept non-optional with default `[]`: the only
creation site without a `refs` field, the defensive record-creation
branch inside `buildHebbianLinks`, is unreachable in the distill flow
because every keyword of the file map was reinforced—and thus given
`refs`—immediately before; `deepRecall` additionally guards with
`memory.refs || []`.) -/

structure SynRecord where
  weight : ℚ
  lastAccess : Option Nat := none
  lastSeen : Option Nat := none
  firstSeen : Option Nat := none
  count : Option Nat := none
  recall_count : Option Nat := none
  refs : List String := []
  synapses : Option (List (String × Nat)) := none
  pinned : Bool := false
  rule : Option String := none
  confidence : Option ℚ := none
  domain : Option String := none
  source : Option String := none
  trigger : Option String := none
  revivedFrom : Option String := none
  revivedAt : Option Nat := none
  memorizedAt : Option Nat := none
  archivedAt : Option Nat := none
  originalWeight : Option ℚ := none
  deriving DecidableEq, Repr

/-- A JS object keyed by strings, in insertion order. -/
abbrev Store := List (String × SynRecord)

def lookupStore : Store → String → Option SynRecord
  | [], _ => none
  | (k', v) :: rest, k => if k' = k then some v else lookupStore rest k

/-- JS property assignment: update the existing binding in place, else
append a fresh one. -/
def insertKey : Store → String → SynRecord → Store
  | [], k, v => [(k, v)]
  | (k', v') :: rest, k, v =>
      if k' = k then (k, v) :: rest else (k', v') :: insertKey rest k v

/-- JS `delete obj[k]` (keys are unique, so removing every binding of
`k` coincides with removing the one binding). -/
def eraseKey : Store → String → Store
  | [], _ => []
  | (k', v) :: rest, k => if k' = k then eraseKey rest k else (k', v) :: eraseKey rest k

def storeKeys (m : Store) : List String := m.map Prod.fst

/-- Well-formedness: a JS object binds each key at most once. -/
def WFStore (m : Store) : Prop := (storeKeys m).Nodup

instance (m : Store) : Decidable (WFStore m) :=
  inferInstanceAs (Decidable (storeKeys m).Nodup)

/-- Association-list lookup with default 0, for `synapses` maps. -/
def lookupNat : List (String × Nat) → String → Nat
  | [], _ => 0
  | (k', v) :: rest, k => if k' = k then v else lookupNat rest k

def insertNat : List (String × Nat) → String → Nat → List (String × Nat)
  | [], k, v => [(k, v)]
  | (k', v') :: rest, k, v =>
      if k' = k then (k, v) :: rest else (k', v') :: insertNat rest k v

/-- The Hebbian strength `hot[a].synapses[b]`, 0 when the record or the
link is absent (`undefined` in JS). -/
def synStrength (hot : Store) (a b : String) : Nat :=
  match lookupStore hot a with
  | none => 0
  | some r =>
    match r.synapses with
    | none => 0
    | some l => lookupNat l b

/-! ## Keyword extraction (`extractKeywords`, skill.js 99–156)

The POS-tagging paths are guarded by `try/catch` on optional
dependencies whose probed APIs are absent, so they contribute nothing
and the function always falls through to the regex fallback (`keywords.size === 0`),
which is also the path §4.1 of the spec documents: CJK runs of ≥ 2
ideographs and ASCII letter runs of ≥ 2, stop-word filtered,
lowercased, deduplicated in insertion order. -/

def CHINESE_STOPWORDS : List String :=
  ["的", "了", "在", "是", "我", "有", "和", "就", "不", "人", "都", "一", "一个", "上", "也", "很",
   "到", "说", "要", "去", "你", "会", "着", "没有", "看", "好", "自己", "这", "那", "里", "什么",
   "可以", "觉得", "应该", "可能", "因为", "所以", "但是", "如果", "只是", "还是", "或者", "而且",
   "然后", "已经", "这样", "那样", "怎么", "这个", "那个", "现在", "之前", "以后", "时候", "方法",
   "东西", "事情", "问题", "地方", "时间", "一下", "一点", "一些", "每次", "还有", "虽然", "不过"]

def ENGLISH_STOPWORDS : List String :=
  ["the", "a", "an", "is", "are", "was", "were", "be", "been", "being", "have", "has", "had",
   "do", "does", "did", "will", "would", "could", "should", "may", "might", "must", "shall",
   "can", "need", "dare", "ought", "used", "to", "of", "in", "for", "on", "with", "at", "by",
   "from", "as", "into", "through", "during", "before", "after", "above", "below", "between",
   "and", "but", "or", "nor", "so", "yet", "both", "either", "neither", "not", "only", "own",
   "same", "than", "too", "very", "just", "also", "now", "here", "there", "when", "where",
   "why", "how", "all", "each", "every", "both", "few", "more", "most", "other", "some",
   "such", "no", "any", "this", "that", "these", "those", "i", "you", "he", "she", "it",
   "we", "they", "what", "which", "who", "whom", "whose", "if", "else", "then", "there"]

/-- `isStopword(word, isChinese)` (skill.js 76–82); the `length < 2`
check on the Chinese side is subsumed for regex matches, which are
already ≥ 2 characters, but is kept faithfully. -/
def isStopword (word : String) (isChinese : Bool) : Bool :=
  if isChinese then word ∈ CHINESE_STOPWORDS ∨ word.toList.length < 2
  else jsToLower word ∈ ENGLISH_STOPWORDS

/-- The regex-fallback body of `extractKeywords` (skill.js 139–155). -/
def extractKeywords (text : String) : List String :=
  let chineseRuns := runsOf isCJK text 2
  let englishRuns := runsOf isAsciiLetter text 2
  let k1 := chineseRuns.foldl
    (fun acc w => if isStopword w true then acc else addUnique acc (jsToLower w)) []
  englishRuns.foldl
    (fun acc w => if isStopword w false then acc else addUnique acc (jsToLower w)) k1

/-! ## LTD parameters (skill.js 45–54) -/

def DECAY_RATE : ℚ := 9/10
def FORGET_THRESHOLD : ℚ := 1/5
def REVIVED_WEIGHT : ℚ := 1/2
def MAX_WEIGHT_MULTIPLIER : ℚ := 2
def DECAY_FACTOR : ℚ := 1/10

/-! ## Distillation: keyword reinforcement (skill.js 253–287) -/

/-- The record created for a keyword's first appearance
(skill.js 261–269). -/
def freshKeywordRecord (file : String) (now : Nat) : SynRecord :=
  { weight := 1, lastAccess := some now, lastSeen := some now, firstSeen := some now,
    count := some 1, recall_count := some 0, refs := [file] }

/-- `reinforce_on_observation` for one keyword of one file
(skill.js 258–281).  On update, `!count` (undefined or 0) becomes 1 and
any other `count` is incremented — both cases equal `(count ?? 0) + 1`. -/
def reinforceKeyword (hot : Store) (keyword file : String) (now : Nat) : Store :=
  let lowerKeyword := jsToLower keyword
  match lookupStore hot lowerKeyword with
  | none => insertKey hot lowerKeyword (freshKeywordRecord file now)
  | some r =>
      insertKey hot lowerKeyword
        { r with count := some (r.count.getD 0 + 1),
                 lastSeen := some now, lastAccess := some now,
                 refs := if file ∈ r.refs then r.refs else r.refs ++ [file] }

/-- First pass of `distill` over one log file: extract keywords,
reinforce each, and record the file's keyword list (lowercased) for the
later Hebbian linkage (skill.js 253–287). -/
def processLogKeywords (hot : Store) (file content : String) (now : Nat) :
    Store × (String × List String) :=
  let keywords := extractKeywords content
  (keywords.foldl (fun h kw => reinforceKeyword h kw file now) hot,
   (file, keywords.map jsToLower))

/-! ## Distillation: special-concept lines (skill.js 290–317) -/

def specialKeywordList : List String :=
  ["important", "todo", "decision", "lesson", "remember", "重要", "决策", "教训", "记住"]

/-- `line.match(/(IMPORTANT|TODO|DECISION|LESSON|REMEMBER|重要|决策|教训|记住)/i)`. -/
def lineIsSpecial (line : String) : Bool :=
  specialKeywordList.any (fun k => jsIncludes (jsToLower line) k)

/-- `line.replace(/[-*#]/g, '').trim().substring(0, 50)` (skill.js 297). -/
def specialConcept (line : String) : String :=
  jsSubstring0 (jsTrim (String.mk
    (line.toList.filter (fun c => ¬ (c = '-' ∨ c = '*' ∨ c = '#'))))) 50

/-- Upsert of one special-concept line (skill.js 298–315). -/
def reinforceSpecialLine (hot : Store) (line file : String) (now : Nat) : Store :=
  if lineIsSpecial line then
    let lowerConcept := jsToLower (specialConcept line)
    match lookupStore hot lowerConcept with
    | none => insertKey hot lowerConcept (freshKeywordRecord file now)
    | some r =>
        insertKey hot lowerConcept
          { r with weight := r.weight + 1/2,
                   lastAccess := some now, lastSeen := some now,
                   count := some (r.count.getD 0 + 1),
                   refs := if file ∈ r.refs then r.refs else r.refs ++ [file] }
  else hot

def processSpecialLines (hot : Store) (file content : String) (now : Nat) : Store :=
  (jsLines content).foldl (fun h line => reinforceSpecialLine h line file now) hot

/-! ## Predictive LTD (`applyUnusedRecallPenalty`, skill.js 657–687)

The `forEach` over `Object.keys` mutates each record independently, i.e.
it is a pointwise map over the store. -/

def penaltyTransform (r : SynRecord) : SynRecord :=
  if r.pinned then r
  else if r.recall_count.getD 0 < 3 then r
  else
    let rc := r.recall_count.getD 0
    let r' :=
      if (r.count.getD 0 : ℚ) < (rc : ℚ) * (1/2) then
        { r with weight := r.weight - (1/10) * (rc : ℚ) }
      else r
    { r' with recall_count := some 0 }

def applyUnusedRecallPenalty (hot : Store) : Store :=
  hot.map (fun p => (p.1, penaltyTransform p.2))

/-! ## Hebbian linkage (`buildHebbianLinks`, skill.js 603–648) -/

/-- `{ weight: 0.5, synapses: {} }` (skill.js 624, 627) — the defensive
creation branch for a pair member missing from the store. -/
def hebbianFreshRecord : SynRecord :=
  { weight := 1/2, synapses := some [] }

def ensureRecord (hot : Store) (k : String) : Store :=
  match lookupStore hot k with
  | some _ => hot
  | none => insertKey hot k hebbianFreshRecord

def ensureSynapses (hot : Store) (k : String) : Store :=
  match lookupStore hot k with
  | none => hot
  | some r =>
      match r.synapses with
      | some _ => hot
      | none => insertKey hot k { r with synapses := some [] }

/-- `hot[a].synapses[b] = (hot[a].synapses[b] || 0) + 1` (skill.js 637–638). -/
def bumpSynapse (hot : Store) (a b : String) : Store :=
  match lookupStore hot a with
  | none => hot
  | some r =>
      let l := r.synapses.getD []
      insertKey hot a { r with synapses := some (insertNat l b (lookupNat l b + 1)) }

/-- The body of the inner double loop for one keyword pair
(skill.js 617–641). -/
def processPair (hot : Store) (a b : String) : Store :=
  if a = b then hot
  else
    let h1 := ensureRecord hot a
    let h2 := ensureRecord h1 b
    let h3 := ensureSynapses h2 a
    let h4 := ensureSynapses h3 b
    bumpSynapse (bumpSynapse h4 a b) b a

/-- The ordered index pairs `i < j` of the keyword list
(skill.js 615–616). -/
def orderedPairs : List String → List (String × String)
  | [] => []
  | a :: rest => rest.map (fun b => (a, b)) ++ orderedPairs rest

/-- `buildHebbianLinks(fileKeywordsMap)` (skill.js 603–648); the
`keywords.length < 2` guard is subsumed: such lists contribute no pairs. -/
def buildHebbianLinks (hot : Store) (fileKeywordsMap : List (String × List String)) : Store :=
  fileKeywordsMap.foldl
    (fun h entry => (orderedPairs entry.2).foldl (fun h' p => processPair h' p.1 p.2) h)
    hot

/-! ## LTD (`applyLTD`, skill.js 728–759)

The single `forEach` over a snapshot of `Object.keys` decays every
non-pinned record and moves those falling below the threshold into the
latent store (assignments to `latentWeights` in iteration order) while
deleting them from the hot store; surviving keys keep their order.
`daysSinceAccess` (skill.js 738) is computed but never used. -/

/-- The latent copy `{...record, archivedAt, originalWeight}` taken
*after* the decay multiplication (skill.js 740–747). -/
def demotedRecord (r : SynRecord) (w : ℚ) (now : Nat) : SynRecord :=
  { r with weight := w, archivedAt := some now, originalWeight := some w }

def applyLTDRec (now : Nat) : Store → Store × List (String × SynRecord)
  | [] => ([], [])
  | (k, r) :: rest =>
      let res := applyLTDRec now rest
      if r.pinned then ((k, r) :: res.1, res.2)
      else
        let w := r.weight * DECAY_RATE
        if w < FORGET_THRESHOLD then (res.1, (k, demotedRecord r w now) :: res.2)
        else ((k, { r with weight := w }) :: res.1, res.2)

def applyLTD (hot latent : Store) (now : Nat) : Store × Store :=
  let res := applyLTDRec now hot
  (res.1, res.2.foldl (fun l p => insertKey l p.1 p.2) latent)

/-! ## Deep recall (`deepRecall`, skill.js 770–856)

`deepRecall(queryOrArray, limit)` matches latent keys against the
queries, revives the best matches into the hot store and deletes them
from the latent store, and persists both stores.  Its *result object*,
however, is never produced: both the archive-context loop (skill.js 834,
836) and the returned object literal (skill.js 850) read the identifier
`query`, which is bound nowhere in the function (its parameter is
`queryOrArray`; `mainQuery`/`queries` are the locals).  The first read
sits inside the `try`, so the archive context merely comes out empty;
the read at line 850 is outside every handler, so after saving the
mutated stores the function throws `ReferenceError: query is not
defined` and every caller of `deepRecall` rejects. -/

inductive JsError
  | referenceErrorQuery
  deriving DecidableEq, Repr

/-- Shape of the result object `deepRecall` *attempts* to build
(skill.js 848–855) — unreachable, kept to document the claimed shape. -/
structure DeepResult where
  source : String
  query : String
  revived_count : Nat
  revived_memories : List (String × ℚ × List String)
  archive_context : List (String × List String)
  remaining_latent : Nat
  deriving DecidableEq, Repr

/-- `latent[x].originalWeight || latent[x].weight || 0` (skill.js 790–791). -/
def latentSortWeight (latent : Store) (k : String) : ℚ :=
  match lookupStore latent k with
  | none => 0
  | some r =>
      match r.originalWeight with
      | some w => if w = 0 then (if r.weight = 0 then 0 else r.weight) else w
      | none => if r.weight = 0 then 0 else r.weight

/-- Whether a latent key matches any of the expanded queries
(skill.js 780–785). -/
def latentKeyMatches (queries : List String) (k : String) : Bool :=
  let keyLower := jsToLower k
  queries.any (fun q =>
    let queryLower := jsToLower q
    jsIncludes keyLower queryLower || jsIncludes queryLower keyLower)

/-- The keys `deepRecall` will revive: matched latent keys sorted by
descending original weight, first `limit` taken (skill.js 780–796). -/
def deepReviveList (latent : Store) (queries : List String) (limit : Nat) : List String :=
  let matched := (storeKeys latent).filter (latentKeyMatches queries)
  (jsSort (fun a b => latentSortWeight latent b < latentSortWeight latent a) matched).take limit

/-- The fresh hot record of a revived memory (skill.js 802–808): only
`weight`, `lastAccess`, `refs`, `revivedFrom`, `revivedAt` — the
demoted record's `firstSeen`, `count`, `synapses` and the rest are
dropped. -/
def revivedRecord (m : SynRecord) (now : Nat) : SynRecord :=
  { weight := REVIVED_WEIGHT, lastAccess := some now, refs := m.refs,
    revivedFrom := some "latent", revivedAt := some now }

/-- The revival loop (skill.js 798–819).  The `none` branch is
unreachable: the keys come from the latent store itself. -/
def reviveGo (now : Nat) : List String → Store → Store → Store × Store
  | [], hot, latent => (hot, latent)
  | k :: ks, hot, latent =>
      match lookupStore latent k with
      | none => reviveGo now ks hot latent
      | some m => reviveGo now ks (insertKey hot k (revivedRecord m now)) (eraseKey latent k)

/-- `deepRecall` as a state transformer: the stores after the (persisted)
revival, plus the outcome — always the `ReferenceError` described above. -/
def deepRecallOp (hot latent : Store) (queries : List String) (limit : Nat) (now : Nat) :
    Store × Store × Except JsError DeepResult :=
  let toRevive := deepReviveList latent queries limit
  let res := reviveGo now toRevive hot latent
  (res.1, res.2, Except.error JsError.referenceErrorQuery)

/-! ## Local file search (`local_file_search.js`)

The index is rebuilt from the markdown files of the active memory
directory followed by the archive directory; a file is modelled as a
`(name, content)` pair and the mtime-keyed cache as the index derived
directly from those files (a fresh build and a cache hit produce the
same word sets).  Paths are modelled by the file names. -/

structure SearchResult where
  file : String
  score : Option Nat := none
  similarity : Option ℚ := none
  content : Option String := none
  title : Option String := none
  text : Option String := none
  preview : Option String := none
  dynamicWeight : Option ℚ := none
  finalScore : Option ℚ := none
  deriving DecidableEq, Repr

/-- `extractWords` (local_file_search.js 575–602): lowercased CJK runs
of ≥ 2 plus every single ideograph inside them, ASCII letter runs of
≥ 2, and alphanumeric runs of ≥ 2, as an insertion-ordered set. -/
def extractWords (text : String) : List String :=
  let textLower := jsToLower text
  let w1 := (runsOf isCJK textLower 2).foldl
    (fun acc w => (w.toList.filter isCJK).foldl
      (fun acc' c => addUnique acc' (String.mk [c])) (addUnique acc w)) []
  let w2 := (runsOf isAsciiLetter textLower 2).foldl addUnique w1
  (runsOf (fun c => isAsciiLetter c ∨ isDigitChar c) textLower 2).foldl addUnique w2

/-- The files (in index order) whose word set contains `w` — the set
`indexCache.get(w)` (local_file_search.js 554–568). -/
def filesWithWord (files : List (String × String)) (w : String) : List String :=
  (files.filter (fun f => w ∈ extractWords f.2)).map Prod.fst

/-- Score accumulation into the insertion-ordered `fileScores` map. -/
def bumpScores (scores : List (String × Nat)) (fs : List String) (pts : Nat) :
    List (String × Nat) :=
  fs.foldl (fun acc f => insertNat acc f (lookupNat acc f + pts)) scores

/-- `extractRelevantContent` (local_file_search.js 656–674): the line
block around the first match, else the first three lines. -/
def lookupFile : List (String × String) → String → Option String
  | [], _ => none
  | (k', v) :: rest, k => if k' = k then some v else lookupFile rest k

def extractRelevantContent (files : List (String × String)) (file query : String) : String :=
  match lookupFile files file with
  | none => "Failed to read content"
  | some content =>
    let lines := jsLines content
    let queryLower := jsToLower query
    match lines.findIdx? (fun line => jsIncludes (jsToLower line) queryLower) with
    | some i =>
        let start := i - 1
        let stop := min lines.length (i + 2)
        jsTrim (String.intercalate "\n" ((lines.drop start).take (stop - start)))
    | none => jsTrim (String.intercalate "\n" (lines.take 3))

/-- `searchInIndex` (local_file_search.js 609–648): CJK queries score
+10 for the exact query word and +1 per ideograph; other queries score
+1 per query token of length > 2; results are sorted by descending score
and carry a content snippet. -/
def searchInIndex (files : List (String × String)) (query : String) : List SearchResult :=
  let scores :=
    if query.toList.any isCJK then
      let queryLower := jsToLower query
      let s1 := bumpScores [] (filesWithWord files queryLower) 10
      (queryLower.toList.filter isCJK).foldl
        (fun acc c => bumpScores acc (filesWithWord files (String.mk [c])) 1) s1
    else
      let queryWords := (jsSplitNonWord query).filter (fun w => 2 < w.toList.length)
      queryWords.foldl (fun acc w => bumpScores acc (filesWithWord files w) 1) []
  (jsSort (fun a b => b.2 < a.2) scores).map
    (fun p => { file := p.1, score := some p.2,
                content := some (extractRelevantContent files p.1 query) })

/-- `performSearch` over the expanded queries
(local_file_search.js 465–501): per-query results merged with
first-seen-file deduplication.  The "direct match priority" comparator
(487–491) reads `a.query`, a field `searchInIndex` results never carry,
so both sides are always `false` and the sort orders by descending
score alone. -/
def performSearchResults (files : List (String × String)) (queries : List String) :
    List SearchResult :=
  let allResults := queries.foldl
    (fun acc q =>
      (searchInIndex files (jsToLower q)).foldl
        (fun acc' r => if acc'.any (fun r' => r'.file = r.file) then acc' else acc' ++ [r]) acc)
    []
  (jsSort (fun a b => b.score.getD 0 < a.score.getD 0) allResults).take 5

/-! ## Dynamic re-ranking (skill.js 484–535)

`Math.log` is a float; it is passed in as `logFn` so the development
covers every possible float behaviour of the re-ranking (no claim
depends on its value). -/

/-- `lastSeen || lastAccess`: JS `||` falls through on 0 or undefined.
Every record this is evaluated on in practice carries `lastAccess`. -/
def jsOrNat (a : Option Nat) (b : Option Nat) : Nat :=
  match a with
  | some n => if n = 0 then b.getD 0 else n
  | none => b.getD 0

/-- `calculateKeywordWeight` (skill.js 484–509). -/
def calculateKeywordWeight (logFn : ℚ → ℚ) (hot : Store) (now : Nat) (keyword : String) : ℚ :=
  match lookupStore hot (jsToLower keyword) with
  | none => 1
  | some record =>
    let lastSeenTime := jsOrNat record.lastSeen record.lastAccess
    let daysSinceLastSeen := max 0 (((now : ℚ) - (lastSeenTime : ℚ)) / (1000 * 3600 * 24))
    let decay := 1 / (1 + DECAY_FACTOR * daysSinceLastSeen)
    let frequencyWeight :=
      match record.count with
      | some count => 1 + logFn ((count : ℚ) + 1) * decay
      | none => 1 + max 0 (record.weight - 1) * decay
    min frequencyWeight MAX_WEIGHT_MULTIPLIER

/-- `(result.similarity || 0.5)`: 0 and undefined both fall to 0.5. -/
def jsOrSimilarity (s : Option ℚ) : ℚ :=
  match s with
  | some v => if v = 0 then 1/2 else v
  | none => 1/2

/-- `sortRecallResultsWithDynamicWeights` (skill.js 511–535). -/
def sortRecallResultsWithDynamicWeights (logFn : ℚ → ℚ) (hot : Store) (now : Nat)
    (results : List SearchResult) (query : String) : List SearchResult :=
  let queryKeywords := extractKeywords query
  let scored := results.map (fun r =>
    let content := jsToLower ((r.content.orElse (fun _ => r.text.orElse (fun _ => r.title))).getD "")
    let title := jsToLower (r.title.getD "")
    let matched := queryKeywords.foldl
      (fun m qk =>
        let dw := calculateKeywordWeight logFn hot now qk
        if (jsIncludes content qk || jsIncludes title qk) ∧ m < dw then dw else m)
      1
    { r with dynamicWeight := some matched,
             finalScore := some (jsOrSimilarity r.similarity * matched) })
  jsSort (fun a b => b.finalScore.getD 0 < a.finalScore.getD 0) scored

/-! ## Hebbian spreading activation (`getHebbianAssociations`,
skill.js 697–721)

Reads `this.weights[query.toLowerCase()]` *and* initialises its
`synapses` field to `{}` when the record exists without one — a store
mutation that the subsequent `this.save()` persists. -/

def hebbianInit (hot : Store) (lowerQuery : String) : Store :=
  match lookupStore hot lowerQuery with
  | none => hot
  | some r =>
      match r.synapses with
      | some _ => hot
      | none => insertKey hot lowerQuery { r with synapses := some [] }

def getHebbianAssociations (hot : Store) (query : String) (topN : Nat := 3) :
    Store × List String :=
  let lowerQuery := jsToLower query
  let hot' := hebbianInit hot lowerQuery
  let synapses := ((lookupStore hot' lowerQuery).bind (fun r => r.synapses)).getD []
  (hot', ((jsSort (fun a b => b.2 < a.2) synapses).take topN).map Prod.fst)

/-! ## Observations and the Observer (`observer.js`)

`recordObservation` appends one JSON line; the id's random suffix
carries no information used anywhere, so an id is modelled as
`"obs_" ++ toString now`. -/

inductive ObsType
  | user_correction
  | error_resolution
  | workflow
  | tool_preference
  deriving DecidableEq, Repr

structure Observation where
  id : String
  otype : ObsType
  pattern : Option String := none
  errorType : Option String := none
  workflowHash : Option String := none
  taskType : Option String := none
  deriving DecidableEq, Repr

/-- `silentObserve(context, type)` (skill.js 173–193). -/
def silentObservation (context : String) (t : ObsType) (now : Nat) : Observation :=
  { id := "obs_" ++ toString now, otype := t,
    pattern := some (jsSubstring0 context 50),
    workflowHash := some (jsSubstring0 context 30),
    taskType := some (jsSubstring0 context 30) }

/-- `a || b` on option strings: the empty string is falsy. -/
def jsOrStr (a : Option String) (b : String) : String :=
  match a with
  | some s => if s = "" then b else s
  | none => b

/-- The grouping key of an observation (observer.js 150):
`pattern || errorType || workflowHash || taskType || 'default'`. -/
def obsKey (o : Observation) : String :=
  jsOrStr o.pattern (jsOrStr o.errorType (jsOrStr o.workflowHash (jsOrStr o.taskType "default")))

/-- `calculateConfidence` (observer.js 237–242). -/
def calculateConfidence (observationCount : Nat) : ℚ :=
  if observationCount ≤ 2 then 3/10
  else if observationCount ≤ 5 then 1/2
  else if observationCount ≤ 10 then 7/10
  else 85/100

def instinctId (t : ObsType) (key : String) : String :=
  match t with
  | ObsType.user_correction => "user-correct-" ++ sanitizeKey key
  | ObsType.error_resolution => "error-resolve-" ++ sanitizeKey key
  | ObsType.workflow => "workflow-" ++ sanitizeKey key
  | ObsType.tool_preference => "tool-pref-" ++ sanitizeKey key

def instinctTrigger (t : ObsType) (key : String) : String :=
  match t with
  | ObsType.user_correction => "user correction pattern: " ++ key
  | ObsType.error_resolution => "error: " ++ key
  | ObsType.workflow => "workflow: " ++ key
  | ObsType.tool_preference => "task: " ++ key

def instinctAction (t : ObsType) (key : String) : String :=
  match t with
  | ObsType.user_correction => "auto-correct: " ++ key
  | ObsType.error_resolution => "auto-resolve: " ++ key
  | ObsType.workflow => "auto-execute: " ++ key
  | ObsType.tool_preference => "use preferred tool for: " ++ key

def instinctDomain (t : ObsType) : String :=
  match t with
  | ObsType.user_correction => "user_preference"
  | ObsType.error_resolution => "error_handling"
  | ObsType.workflow => "workflow"
  | ObsType.tool_preference => "tool_usage"

/-- `createOrUpdateInstinct` (observer.js 247–286): assigns a *fresh*
pinned record of weight 1.0 at `instinct.id.toLowerCase()`, replacing
whatever record held that key.  Lock acquisition is modelled as
successful (the claims concern the single-process semantics). -/
def createOrUpdateInstinct (hot : Store) (t : ObsType) (key : String)
    (evidence : List String) (now : Nat) : Store :=
  insertKey hot (jsToLower (instinctId t key))
    { weight := 1, lastAccess := some now, lastSeen := some now,
      count := some evidence.length,
      refs := evidence, pinned := true,
      rule := some (instinctAction t key),
      confidence := some (calculateConfidence evidence.length),
      domain := some (instinctDomain t),
      source := some "batch-observation",
      trigger := some (instinctTrigger t key) }

/-- First-occurrence-ordered distinct grouping keys among the
observations of one type (JS object key insertion order). -/
def groupKeysFor (obs : List Observation) (t : ObsType) : List String :=
  (obs.filter (fun o => o.otype = t)).foldl (fun acc o => addUnique acc (obsKey o)) []

/-- Process all groups of one type (observer.js 160–168):
every group of ≥ 3 observations yields an instinct. -/
def promoteType (hot : Store) (obs : List Observation) (t : ObsType) (now : Nat) :
    Store × Nat :=
  (groupKeysFor obs t).foldl
    (fun acc key =>
      let group := obs.filter (fun o => o.otype = t ∧ obsKey o = key)
      if 3 ≤ group.length then
        (createOrUpdateInstinct acc.1 t key (group.map Observation.id) now, acc.2 + 1)
      else acc)
    (hot, 0)

/-- `performBatchAnalysis` (observer.js 114–176): no-op below 5
observations; otherwise promote every recurrent group and, if at least
one instinct was created, truncate the observation log. -/
def performBatchAnalysis (hot : Store) (obs : List Observation) (now : Nat) :
    Store × List Observation :=
  if obs.length < 5 then (hot, obs)
  else
    let res := [ObsType.user_correction, ObsType.error_resolution,
                ObsType.workflow, ObsType.tool_preference].foldl
      (fun acc t =>
        let r := promoteType acc.1 obs t now
        (r.1, acc.2 + r.2))
      (hot, 0)
    if 0 < res.2 then (res.1, []) else (res.1, obs)

/-! ## The engine state and the public operations

One CLI invocation constructs one `SynapseMemory`, which loads both
stores from disk; every operation below transforms the *persisted*
state that the next invocation will load.  `activeFiles` and
`archiveFiles` model `workspace/memory/*.md` and its `archive/`
subdirectory as `(name, content)` pairs. -/

structure State where
  hot : Store
  latent : Store
  observations : List Observation
  activeFiles : List (String × String)
  archiveFiles : List (String × String)
  deriving DecidableEq, Repr

structure RecallResult where
  source : String
  activated_concepts : List String
  pinned_rules : List (String × Option String)
  search_results : List SearchResult
  weights_snapshot : List (String × ℚ)
  scoring_mode : String
  is_fast_mode : Bool
  deep_recall : Option DeepResult := none
  deriving DecidableEq, Repr

/-- Environment of one `recall` invocation: whether `silicon-embed`
loaded, the outcome of the raced vector search (`none` is JS `null`:
unavailable, failed or timed out), the timeout flag, whether the local
search promise was rejected (its `.catch` yields `[]`), and the float
logarithm used only by the re-ranking. -/
structure RecallEnv where
  vectorLoaded : Bool
  vectorResults : Option (List SearchResult)
  vectorTimeout : Bool
  localFails : Bool
  logFn : ℚ → ℚ

def weightOf (hot : Store) (k : String) : ℚ :=
  ((lookupStore hot k).map SynRecord.weight).getD 0

/-- Direct activation (skill.js 369–372): every hot key `k` with
`query.includes(k) || k.includes(query)`, sorted by descending weight,
top 5.  Note `k.includes("")` is true, so the empty query activates
every key. -/
def recallTopConcepts (hot : Store) (query : String) : List String :=
  let activatedConcepts :=
    (storeKeys hot).filter (fun k => jsIncludes query k || jsIncludes k query)
  (jsSort (fun a b => weightOf hot b < weightOf hot a) activatedConcepts).take 5

/-- The LTP reinforcement of one activated concept (skill.js 376–382);
`firstSeen` is deliberately untouched. -/
def ltpBump (now : Nat) (r : SynRecord) : SynRecord :=
  { r with lastAccess := some now, weight := r.weight + 1/10,
           recall_count := some (r.recall_count.getD 0 + 1) }

/-- In-place mutation of each listed key's record, in order (a JS
`forEach` over keys of the store). -/
def mutateEach (hot : Store) (ks : List String) (f : SynRecord → SynRecord) : Store :=
  ks.foldl
    (fun h k =>
      match lookupStore h k with
      | some r => insertKey h k (f r)
      | none => h)
    hot

/-- Step 1 of `recall` (skill.js 369–382): LTP reinforcement of the
top activated concepts. -/
def recallLTP (st : State) (query : String) (now : Nat) : Store :=
  mutateEach st.hot (recallTopConcepts st.hot query) (ltpBump now)

/-- The hot store as persisted by `recall`'s `this.save()` (skill.js
389): LTP plus the `synapses` initialisation of
`getHebbianAssociations`. -/
def recallHot2 (st : State) (query : String) (now : Nat) : Store :=
  (getHebbianAssociations (recallLTP st query now) query).1

/-- `expandedQuery` (skill.js 386). -/
def recallExpanded (st : State) (query : String) (now : Nat) : List String :=
  query :: (getHebbianAssociations (recallLTP st query now) query).2

/-- The local search leg (skill.js 397–400): a rejected promise is
caught and becomes `[]`. -/
def recallLocalResults (st : State) (env : RecallEnv) (expanded : List String) :
    List SearchResult :=
  if env.localFails then [] else performSearchResults (st.activeFiles ++ st.archiveFiles) expanded

/-- The raced vector outcome (skill.js 404–429): `null` unless the
module loaded. -/
def recallEffVector (env : RecallEnv) : Option (List SearchResult) :=
  if env.vectorLoaded then env.vectorResults else none

/-- `vectorResults && vectorResults.length > 0` (skill.js 432). -/
def recallUseVector (env : RecallEnv) : Bool :=
  match recallEffVector env with
  | some rs => !rs.isEmpty
  | none => false

def recallSearchSource (env : RecallEnv) : String :=
  if recallUseVector env then "silicon-embed" else "local-file-search"

def recallRawResults (st : State) (env : RecallEnv) (expanded : List String) :
    List SearchResult :=
  if recallUseVector env then (recallEffVector env).getD [] else recallLocalResults st env expanded

/-- Pinned-rule injection (skill.js 459–461). -/
def recallPinnedRules (hot2 : Store) (query : String) : List (String × Option String) :=
  (hot2.filter (fun p =>
      p.2.pinned && (jsIncludes (jsToLower query) p.1 || jsIncludes p.1 (jsToLower query)))).map
    (fun p => (p.1, p.2.rule))

/-- The response object of skill.js 463–471 (before the deep-recall
augmentation). -/
def recallBaseResult (st : State) (query : String) (deep : Bool) (env : RecallEnv)
    (now : Nat) : RecallResult :=
  let hot2 := recallHot2 st query now
  let raw := recallRawResults st env (recallExpanded st query now)
  { source := recallSearchSource env,
    activated_concepts := recallTopConcepts st.hot query,
    pinned_rules := recallPinnedRules hot2 query,
    search_results :=
      if !raw.isEmpty && !deep then
        sortRecallResultsWithDynamicWeights env.logFn hot2 now raw query
      else raw,
    weights_snapshot := (recallTopConcepts st.hot query).map (fun c => (c, weightOf hot2 c)),
    scoring_mode := if deep then "pure_similarity" else "semantic_x_frequency_x_decay",
    is_fast_mode := env.vectorTimeout }

/-- `recall(query, { deep, reviveLimit })` (skill.js 364–482) as a state
transformer plus outcome.  With `deep = true` the call to `deepRecall`
(line 452) rejects after persisting the revival, the error propagates —
there is no handler between line 452 and the CLI — and the
`silentObserve` of line 479 is never reached.  The `Except.ok` branch of
the deep case is therefore unreachable; it is kept total, building the
response of skill.js 463–477. -/
def recallOp (st : State) (query : String) (deep : Bool) (reviveLimit : Nat)
    (env : RecallEnv) (now : Nat) : State × Except JsError RecallResult :=
  let hot2 := recallHot2 st query now
  let expandedQuery := recallExpanded st query now
  if deep then
    let dr := deepRecallOp hot2 st.latent expandedQuery reviveLimit now
    match dr.2.2 with
    | Except.error e =>
        ({ st with hot := dr.1, latent := dr.2.1 }, Except.error e)
    | Except.ok d =>
        ({ st with hot := dr.1, latent := dr.2.1,
                   observations := st.observations ++ [silentObservation query ObsType.workflow now] },
         Except.ok { recallBaseResult st query deep env now with
                       deep_recall := some d,
                       source := recallSearchSource env ++ " + deep_recall" })
  else
    ({ st with hot := hot2,
               observations := st.observations ++ [silentObservation query ObsType.workflow now] },
     Except.ok (recallBaseResult st query deep env now))

/-- `/^\d{4}-\d{2}-\d{2}\.md$/` (skill.js 237–240). -/
def isDailyLog (name : String) : Bool :=
  match name.toList with
  | [a, b, c, d, '-', e, f, '-', g, h, '.', 'm', 'd'] =>
      [a, b, c, d, e, f, g, h].all isDigitChar
  | _ => false

def distillLogFilter (force : Bool) (today : String) (f : String) : Bool :=
  isDailyLog f ∧ (force ∨ ¬ jsIncludes f today)

/-- `distill(forceToday)` (skill.js 224–355).  The Observer batch
analysis (step 1) re-reads the weights *file* and writes instincts into
it, but the remaining steps operate on `this.weights`, loaded before,
and the final `this.save()` overwrites the file — so instincts promoted
during a distillation survive only on the early-return path (no logs to
process).  Archive renames are modelled as succeeding. -/
def distillOp (st : State) (force : Bool) (today : String) (now : Nat) : State :=
  let batch := performBatchAnalysis st.hot st.observations now
  let logs := st.activeFiles.filter (fun f => distillLogFilter force today f.1)
  if logs.isEmpty then
    { st with hot := batch.1, observations := batch.2 }
  else
    let kw := logs.foldl
      (fun (acc : Store × List (String × List String)) f =>
        let r := processLogKeywords acc.1 f.1 f.2 now
        (r.1, acc.2 ++ [r.2]))
      (st.hot, [])
    let hotA := logs.foldl (fun h f => processSpecialLines h f.1 f.2 now) kw.1
    let hotB := applyUnusedRecallPenalty hotA
    let hotC := buildHebbianLinks hotB kw.2
    let ltd := applyLTD hotC st.latent now
    { hot := ltd.1, latent := ltd.2,
      observations := batch.2 ++ [silentObservation "distill-completed" ObsType.workflow now],
      activeFiles := st.activeFiles.filter (fun f => ¬ distillLogFilter force today f.1),
      archiveFiles := st.archiveFiles ++ logs }

/-- The `forget` command (skill.js 1222–1225): one manual LTD cycle. -/
def forgetOp (st : State) (now : Nat) : State :=
  let ltd := applyLTD st.hot st.latent now
  { st with hot := ltd.1, latent := ltd.2 }

/-- The `deep-recall` command (skill.js 1211–1216): the revival is
persisted, then the `ReferenceError` aborts the process with exit 1. -/
def deepRecallCliOp (st : State) (query : String) (now : Nat) :
    State × Except JsError DeepResult :=
  let dr := deepRecallOp st.hot st.latent [query] 5 now
  ({ st with hot := dr.1, latent := dr.2.1 }, dr.2.2)

/-- The fresh record the `memorize` command writes (skill.js 1300–1311);
`memorizedAt` holds an ISO rendering of the same instant. -/
def memorizeRecord (content : String) (now : Nat) : SynRecord :=
  { weight := 5/2, lastAccess := some now, lastSeen := some now, firstSeen := some now,
    count := some 1, refs := [], pinned := true, rule := some content,
    source := some "explicit_memorize", memorizedAt := some now }

/-- The `memorize` command's store effect (skill.js 1298–1312): an
unconditional assignment at the lowercased concept key. -/
def memorizeOp (hot : Store) (concept content : String) (now : Nat) : Store :=
  insertKey hot (jsToLower concept) (memorizeRecord content now)

/-- The `pin-exp` command's store effect (skill.js 1241–1257). -/
def pinExpOp (hot : Store) (keyword rule : String) (now : Nat) : Store :=
  let pinLower := jsToLower keyword
  match lookupStore hot pinLower with
  | none =>
      insertKey hot pinLower
        { weight := 1, lastAccess := some now, lastSeen := some now,
          count := some 1, refs := [], pinned := true, rule := some rule }
  | some r =>
      insertKey hot pinLower
        { r with pinned := true, rule := some rule,
                 weight := max r.weight 1, lastAccess := some now }

/-! ## Operation sequences (for the stability claims) -/

inductive Step
  | recall (query : String) (env : RecallEnv) (now : Nat)
  | forget (now : Nat)

def runStep (st : State) : Step → State
  | Step.recall q env now => (recallOp st q false 5 env now).1
  | Step.forget now => forgetOp st now

def runSteps : State → List Step → State
  | st, [] => st
  | st, s :: rest => runSteps (runStep st s) rest

/-! ## Derived notions used by the specification's invariants -/

/-- The pinned rules of a store, `{keyword, rule}` in store order. -/
def allPinnedRules (hot : Store) : List (String × Option String) :=
  (hot.filter (fun p => p.2.pinned)).map (fun p => (p.1, p.2.rule))

/-- Hebbian symmetry (§3, §8 of the spec): every link is mirrored in the
partner record with equal strength (an absent record or link counts 0,
JS `undefined`). -/
def HebbSym (hot : Store) : Prop :=
  ∀ a b, synStrength hot a b = synStrength hot b a

/-- The key/pinned/rule view of a store entry (what pinned-rule
injection depends on). -/
def pinnedView (p : String × SynRecord) : String × Bool × Option String :=
  (p.1, p.2.pinned, p.2.rule)

/-! ## Concrete scenario fixtures (inputs of the end-to-end claims) -/

/-- A recall environment with the vector path unavailable and the local
path healthy; the re-ranking logarithm is irrelevant here. -/
def envOff : RecallEnv :=
  { vectorLoaded := false, vectorResults := none, vectorTimeout := false,
    localFails := false, logFn := fun _ => 0 }

/-- Cold-start ingest (spec §8, scenario 1). -/
def stC2start : State :=
  { hot := [], latent := [], observations := [],
    activeFiles := [("2025-01-01.md", "memory system database cache")], archiveFiles := [] }

def stC2 : State := distillOp stC2start true "2025-10-11" 0

/-- C3: one concept distilled, decayed below threshold by repeated
`forget`, then re-ingested from a new day's log. -/
def stC3a : State :=
  distillOp
    { hot := [], latent := [], observations := [],
      activeFiles := [("2025-01-01.md", "memory")], archiveFiles := [] }
    true "2025-10-11" 0

def stC3b : State := (List.range 15).foldl (fun st _ => forgetOp st 0) stC3a

def stC3c : State :=
  distillOp { stC3b with activeFiles := [("2025-01-02.md", "memory")] } true "2025-10-11" 1

/-- C4/C6: two linked concepts; `alpha` is reinforced once by recall, so
fifteen LTD cycles demote only `beta`, which deep recall then revives. -/
def stC4a : State :=
  distillOp
    { hot := [], latent := [], observations := [],
      activeFiles := [("2025-01-01.md", "alpha beta")], archiveFiles := [] }
    true "2025-10-11" 0

def stC4b : State := (recallOp stC4a "alpha" false 5 envOff 1).1

def stC4c : State := (List.range 15).foldl (fun st _ => forgetOp st 2) stC4b

def stC4d : State := (deepRecallCliOp stC4c "beta" 3).1

/-- C5: a non-pinned record recalled twice (below the threshold of 3). -/
def recC5a : SynRecord :=
  { weight := 1, lastAccess := some 0, lastSeen := some 0, firstSeen := some 0,
    count := some 1, recall_count := some 2, refs := [] }

/-- C5: a non-pinned record recalled 4 times but consolidated once. -/
def recC5b : SynRecord :=
  { weight := 1, lastAccess := some 0, lastSeen := some 0, firstSeen := some 0,
    count := some 1, recall_count := some 4, refs := [] }

/-- C6: a record whose decayed weight falls below the forget threshold. -/
def recC6 : SynRecord :=
  { weight := 1/5, lastAccess := some 11, lastSeen := some 11, firstSeen := some 11,
    count := some 3, recall_count := some 0, refs := ["2024-12-30.md"] }

def c6Demoted : Store × Store := applyLTD [("c", recC6)] [] 20

def c6Revived : Store × Store × Except JsError DeepResult :=
  deepRecallOp c6Demoted.1 c6Demoted.2 ["c"] 5 30

/-- C7: six concepts all activated by one query; the sixth has the
lowest weight. -/
def recC7 (w : ℚ) : SynRecord :=
  { weight := w, lastAccess := some 0, lastSeen := some 0, firstSeen := some 0,
    count := some 1, recall_count := some 0, refs := [] }

def hotC7 : Store :=
  [("a1", recC7 2), ("a2", recC7 2), ("a3", recC7 2), ("a4", recC7 2),
   ("a5", recC7 2), ("a6", recC7 1)]

def stC7 : State :=
  { hot := hotC7, latent := [], observations := [], activeFiles := [], archiveFiles := [] }

def qC7 : String := "a1 a2 a3 a4 a5 a6"

def stC7after : State := (recallOp stC7 qC7 false 5 envOff 7).1

/-- C8: a pinned record whose key collides with the instinct id that the
Observer promotes from five recalls of the query `"q"`. -/
def recC8 : SynRecord :=
  { weight := 5/2, lastAccess := some 0, lastSeen := some 0, firstSeen := some 0,
    count := some 1, refs := [], pinned := true, rule := some "my rule",
    source := some "explicit_memorize", memorizedAt := some 0 }

def stC8a : State :=
  { hot := [("workflow-q", recC8)], latent := [], observations := [],
    activeFiles := [], archiveFiles := [] }

def stC8b : State :=
  (List.range 5).foldl (fun st i => (recallOp st "q" false 5 envOff (i + 1)).1) stC8a

def stC8c : State := distillOp stC8b false "2025-10-11" 10

/-- C9: a one-record hot store and the empty query. -/
def recC9 : SynRecord :=
  { weight := 1, lastAccess := some 0, lastSeen := some 0, firstSeen := some 0,
    count := some 1, recall_count := some 0, refs := ["f.md"] }

def stC9 : State :=
  { hot := [("aa", recC9)], latent := [], observations := [],
    activeFiles := [], archiveFiles := [("f.md", "aa bb")] }

/-- C10: an organic record about to be overwritten by `memorize`. -/
def recC10 : SynRecord :=
  { weight := 9, lastAccess := some 3, lastSeen := some 3, firstSeen := some 3,
    count := some 7, recall_count := some 2, refs := ["2025-01-01.md"],
    synapses := some [("other", 4)], pinned := true, rule := some "old rule",
    confidence := some (7/10) }

def hotC10 : Store := [("old", recC10), ("other", recC9)]

/-- The key of the C6 round-trip record. -/
def c6Key : String := "c"

/-- C3 witness fixture: a state holding one weak non-pinned record. -/
def stC3w : State :=
  { hot := [("c", recC6)], latent := [], observations := [],
    activeFiles := [], archiveFiles := [] }

/-- C4 witness fixture: links built from one file over three keywords. -/
def hebbC4w : Store := buildHebbianLinks [] [("f.md", ["x", "y", "z"])]

/-- C8 witness fixture: one recall followed by one forget cycle. -/
def stepsC8w : List Step := [Step.recall "q" envOff 1, Step.forget 2]

/-! # Basic lemmas about the store primitives -/

theorem lookup_insertKey_self (m : Store) (k : String) (v : SynRecord) :
    lookupStore (insertKey m k v) k = some v := by
  induction m with
  | nil => simp [insertKey, lookupStore]
  | cons p rest ih =>
      by_cases h : p.1 = k
      · simp [insertKey, h, lookupStore]
      · simp [insertKey, h, lookupStore, ih]

theorem lookup_insertKey_ne (m : Store) (k k' : String) (v : SynRecord) (h : k ≠ k') :
    lookupStore (insertKey m k v) k' = lookupStore m k' := by
  induction m with
  | nil => simp [insertKey, lookupStore, h]
  | cons p rest ih =>
      by_cases hp : p.1 = k
      · simp [insertKey, hp, lookupStore, h]
      · simp [insertKey, hp, lookupStore, ih]

theorem lookup_eraseKey_self (m : Store) (k : String) :
    lookupStore (eraseKey m k) k = none := by
  induction m with
  | nil => simp [eraseKey, lookupStore]
  | cons p rest ih =>
      by_cases hp : p.1 = k
      · simpa [eraseKey, hp] using ih
      · simp [eraseKey, hp, lookupStore, ih]

theorem lookup_eraseKey_ne (m : Store) (k k' : String) (h : k ≠ k') :
    lookupStore (eraseKey m k) k' = lookupStore m k' := by
  induction m with
  | nil => simp [eraseKey]
  | cons p rest ih =>
      by_cases hp : p.1 = k
      · have hq : ¬ p.1 = k' := by rw [hp]; exact h
        simp [eraseKey, hp, lookupStore, hq, h, ih]
      · simp [eraseKey, hp, lookupStore, ih]

theorem mem_keys_of_lookup (m : Store) (k : String) (v : SynRecord)
    (h : lookupStore m k = some v) : k ∈ storeKeys m := by
  induction m with
  | nil => simp [lookupStore] at h
  | cons p rest ih =>
      by_cases hp : p.1 = k
      · simp [storeKeys, hp]
      · simp only [lookupStore, hp, if_false, if_neg hp] at h
        simp only [storeKeys, List.map_cons, List.mem_cons]
        exact Or.inr (ih h)

theorem lookup_of_mem_keys (m : Store) (k : String) (h : k ∈ storeKeys m) :
    ∃ v, lookupStore m k = some v := by
  induction m with
  | nil => simp [storeKeys] at h
  | cons p rest ih =>
      by_cases hp : p.1 = k
      · exact ⟨p.2, by simp [lookupStore, hp]⟩
      · simp only [storeKeys, List.map_cons, List.mem_cons] at h
        rcases h with h | h
        · exact absurd h.symm hp
        · obtain ⟨v, hv⟩ := ih h
          exact ⟨v, by simp [lookupStore, hp, hv]⟩

theorem lookup_not_mem_keys (m : Store) (k : String) (h : k ∉ storeKeys m) :
    lookupStore m k = none := by
  induction m with
  | nil => simp [lookupStore]
  | cons p rest ih =>
      simp only [storeKeys, List.map_cons, List.mem_cons] at h
      push_neg at h
      have hp : ¬ p.1 = k := fun hh => h.1 hh.symm
      simp only [lookupStore, hp, if_neg hp]
      exact ih h.2

theorem keys_insertKey_of_lookup (m : Store) (k : String) (v r : SynRecord)
    (h : lookupStore m k = some r) : storeKeys (insertKey m k v) = storeKeys m := by
  induction m with
  | nil => simp [lookupStore] at h
  | cons p rest ih =>
      by_cases hp : p.1 = k
      · simp [insertKey, hp, storeKeys]
      · simp only [lookupStore, if_neg hp] at h
        simp only [insertKey, if_neg hp, storeKeys, List.map_cons]
        have := ih h
        simp only [storeKeys] at this
        rw [this]

theorem lookup_mapStore (hot : Store) (f : SynRecord → SynRecord) (k : String) :
    lookupStore (hot.map (fun p => (p.1, f p.2))) k = (lookupStore hot k).map f := by
  induction hot with
  | nil => rfl
  | cons p rest ih =>
      by_cases hp : p.1 = k
      · simp [lookupStore, hp]
      · simp [lookupStore, hp, ih]

/-! # Lemmas about the stable sort -/

theorem jsInsert_perm (lt : α → α → Bool) (a : α) (l : List α) :
    (jsInsert lt a l).Perm (a :: l) := by
  induction l with
  | nil => simp [jsInsert]
  | cons b t ih =>
      by_cases h : lt b a
      · simp only [jsInsert, h, if_pos]
        exact ((ih.cons b).trans (List.Perm.swap a b t)).symm.symm
      · simp [jsInsert, h]

theorem jsSort_perm (lt : α → α → Bool) (l : List α) : (jsSort lt l).Perm l := by
  induction l with
  | nil => simp [jsSort]
  | cons a t ih =>
      have : jsSort lt (a :: t) = jsInsert lt a (jsSort lt t) := rfl
      rw [this]
      exact (jsInsert_perm lt a (jsSort lt t)).trans (ih.cons a)

theorem jsSort_nodup (lt : α → α → Bool) (l : List α) (h : l.Nodup) :
    (jsSort lt l).Nodup :=
  (jsSort_perm lt l).nodup_iff.mpr h

theorem jsSort_subset (lt : α → α → Bool) (l : List α) (a : α)
    (h : a ∈ jsSort lt l) : a ∈ l :=
  (jsSort_perm lt l).mem_iff.mp h

theorem nodup_take (l : List α) (n : Nat) (h : l.Nodup) : (l.take n).Nodup :=
  List.Nodup.sublist (List.take_sublist n l) h

/-! # Lemmas about `mutateEach` (the LTP loop shape) -/

theorem mutateEach_cons_none (hot : Store) (a : String) (t : List String)
    (f : SynRecord → SynRecord) (hl : lookupStore hot a = none) :
    mutateEach hot (a :: t) f = mutateEach hot t f := by
  simp only [mutateEach, List.foldl_cons, hl]

theorem mutateEach_cons_some (hot : Store) (a : String) (t : List String)
    (f : SynRecord → SynRecord) (r : SynRecord) (hl : lookupStore hot a = some r) :
    mutateEach hot (a :: t) f = mutateEach (insertKey hot a (f r)) t f := by
  simp only [mutateEach, List.foldl_cons, hl]

theorem mutateEach_not_mem (hot : Store) (ks : List String) (f : SynRecord → SynRecord)
    (k : String) (h : k ∉ ks) :
    lookupStore (mutateEach hot ks f) k = lookupStore hot k := by
  induction ks generalizing hot with
  | nil => rfl
  | cons a t ih =>
      have hka : k ≠ a := fun hh => h (hh ▸ List.mem_cons_self a t)
      have hkt : k ∉ t := fun hh => h (List.mem_cons_of_mem a hh)
      cases hl : lookupStore hot a with
      | none => rw [mutateEach_cons_none hot a t f hl]; exact ih hot hkt
      | some r =>
          rw [mutateEach_cons_some hot a t f r hl, ih (insertKey hot a (f r)) hkt]
          exact lookup_insertKey_ne hot a k (f r) (fun hh => hka hh.symm)

theorem mutateEach_mem (hot : Store) (ks : List String) (f : SynRecord → SynRecord)
    (k : String) (hnd : ks.Nodup) (h : k ∈ ks) :
    lookupStore (mutateEach hot ks f) k = (lookupStore hot k).map f := by
  induction ks generalizing hot with
  | nil => simp at h
  | cons a t ih =>
      rcases List.mem_cons.mp h with rfl | hmem
      · have hkt : k ∉ t := (List.nodup_cons.mp hnd).1
        cases hl : lookupStore hot k with
        | none =>
            rw [mutateEach_cons_none hot k t f hl, Option.map_none']
            exact (mutateEach_not_mem hot t f k hkt).trans hl
        | some r =>
            rw [mutateEach_cons_some hot k t f r hl, Option.map_some',
                mutateEach_not_mem (insertKey hot k (f r)) t f k hkt]
            exact lookup_insertKey_self hot k (f r)
      · have hnd' := (List.nodup_cons.mp hnd).2
        have hka : ¬ k = a := fun hh => (List.nodup_cons.mp hnd).1 (hh ▸ hmem)
        cases hl : lookupStore hot a with
        | none => rw [mutateEach_cons_none hot a t f hl]; exact ih hot hnd' hmem
        | some r =>
            rw [mutateEach_cons_some hot a t f r hl, ih (insertKey hot a (f r)) hnd' hmem,
                lookup_insertKey_ne hot a k (f r) (fun hh => hka hh.symm)]

theorem mutateEach_keys (hot : Store) (ks : List String) (f : SynRecord → SynRecord) :
    storeKeys (mutateEach hot ks f) = storeKeys hot := by
  induction ks generalizing hot with
  | nil => rfl
  | cons a t ih =>
      cases hl : lookupStore hot a with
      | none => rw [mutateEach_cons_none hot a t f hl]; exact ih hot
      | some r =>
          rw [mutateEach_cons_some hot a t f r hl, ih (insertKey hot a (f r))]
          exact keys_insertKey_of_lookup hot a (f r) r hl

/-! # Lemmas about `applyLTD` -/

theorem applyLTDRec_pinned (now : Nat) (hot : Store) (k : String) (r : SynRecord)
    (h : lookupStore hot k = some r) (hp : r.pinned = true) :
    lookupStore (applyLTDRec now hot).1 k = some r := by
  induction hot with
  | nil => simp [lookupStore] at h
  | cons p rest ih =>
      by_cases hk : p.1 = k
      · have : p.2 = r := by simpa [lookupStore, hk] using h
        subst this
        simp [applyLTDRec, hp, lookupStore, hk]
      · simp only [lookupStore, if_neg hk] at h
        rcases p with ⟨k', r'⟩
        by_cases hp' : r'.pinned
        · simpa [applyLTDRec, hp', lookupStore, hk] using ih h
        · by_cases hw : r'.weight * DECAY_RATE < FORGET_THRESHOLD
          · simpa [applyLTDRec, hp', hw] using ih h
          · simpa [applyLTDRec, hp', hw, lookupStore, hk] using ih h

theorem applyLTDRec_keys_sublist (now : Nat) (hot : Store) :
    (storeKeys (applyLTDRec now hot).1).Sublist (storeKeys hot) := by
  induction hot with
  | nil => simp [applyLTDRec, storeKeys]
  | cons p rest ih =>
      rcases p with ⟨k', r'⟩
      by_cases hp' : r'.pinned
      · simpa [applyLTDRec, hp', storeKeys] using ih.cons₂ k'
      · by_cases hw : r'.weight * DECAY_RATE < FORGET_THRESHOLD
        · simpa [applyLTDRec, hp', hw, storeKeys] using ih.cons k'
        · simpa [applyLTDRec, hp', hw, storeKeys] using ih.cons₂ k'

theorem applyLTDRec_demoted_keys_sublist (now : Nat) (hot : Store) :
    ((applyLTDRec now hot).2.map Prod.fst).Sublist (storeKeys hot) := by
  induction hot with
  | nil => simp [applyLTDRec, storeKeys]
  | cons p rest ih =>
      rcases p with ⟨k', r'⟩
      by_cases hp' : r'.pinned
      · simpa [applyLTDRec, hp', storeKeys] using ih.cons k'
      · by_cases hw : r'.weight * DECAY_RATE < FORGET_THRESHOLD
        · simpa [applyLTDRec, hp', hw, storeKeys] using ih.cons₂ k'
        · simpa [applyLTDRec, hp', hw, storeKeys] using ih.cons k'

theorem applyLTDRec_not_mem (now : Nat) (hot : Store) (k : String)
    (h : k ∉ storeKeys hot) : lookupStore (applyLTDRec now hot).1 k = none :=
  lookup_not_mem_keys _ k
    (fun hm => h ((applyLTDRec_keys_sublist now hot).mem hm))

theorem applyLTDRec_demoted_gone (now : Nat) (hot : Store) (k : String) (r : SynRecord)
    (hwf : WFStore hot) (h : lookupStore hot k = some r) (hp : r.pinned = false)
    (hw : r.weight * DECAY_RATE < FORGET_THRESHOLD) :
    lookupStore (applyLTDRec now hot).1 k = none := by
  induction hot with
  | nil => simp [lookupStore] at h
  | cons p rest ih =>
      rcases p with ⟨k', r'⟩
      have hwf' : WFStore rest := (List.nodup_cons.mp hwf).2
      by_cases hk : k' = k
      · have : r' = r := by simpa [lookupStore, hk] using h
        subst this
        subst hk
        have hnotin : k' ∉ storeKeys rest := by
          simpa [storeKeys] using (List.nodup_cons.mp hwf).1
        simp only [applyLTDRec, hp, Bool.false_eq_true, if_false, hw, if_pos]
        exact applyLTDRec_not_mem now rest k' hnotin
      · simp only [lookupStore, if_neg hk] at h
        by_cases hp' : r'.pinned
        · simpa [applyLTDRec, hp', lookupStore, hk] using ih hwf' h
        · by_cases hw' : r'.weight * DECAY_RATE < FORGET_THRESHOLD
          · simpa [applyLTDRec, hp', hw'] using ih hwf' h
          · simpa [applyLTDRec, hp', hw', lookupStore, hk] using ih hwf' h

theorem applyLTDRec_demoted_mem (now : Nat) (hot : Store) (k : String) (r : SynRecord)
    (h : lookupStore hot k = some r) (hp : r.pinned = false)
    (hw : r.weight * DECAY_RATE < FORGET_THRESHOLD) :
    (k, demotedRecord r (r.weight * DECAY_RATE) now) ∈ (applyLTDRec now hot).2 := by
  induction hot with
  | nil => simp [lookupStore] at h
  | cons p rest ih =>
      rcases p with ⟨k', r'⟩
      by_cases hk : k' = k
      · have : r' = r := by simpa [lookupStore, hk] using h
        subst this
        subst hk
        simp [applyLTDRec, hp, hw]
      · simp only [lookupStore, if_neg hk] at h
        by_cases hp' : r'.pinned
        · simpa [applyLTDRec, hp'] using ih h
        · by_cases hw' : r'.weight * DECAY_RATE < FORGET_THRESHOLD
          · simp only [applyLTDRec, hp', Bool.false_eq_true, if_false, hw', if_pos]
            exact List.mem_cons_of_mem _ (ih h)
          · simpa [applyLTDRec, hp', hw'] using ih h

theorem foldInsert_not_mem (l : List (String × SynRecord)) (acc : Store) (k : String)
    (h : k ∉ l.map Prod.fst) :
    lookupStore (l.foldl (fun m p => insertKey m p.1 p.2) acc) k = lookupStore acc k := by
  induction l generalizing acc with
  | nil => rfl
  | cons p t ih =>
      have hk : k ≠ p.1 := fun hh => h (by simp [hh])
      have ht : k ∉ t.map Prod.fst := fun hh => h (by simp [hh])
      simp only [List.foldl_cons]
      rw [ih (insertKey acc p.1 p.2) ht]
      exact lookup_insertKey_ne acc p.1 k p.2 (fun hh => hk hh.symm)

theorem foldInsert_mem (l : List (String × SynRecord)) (acc : Store) (k : String)
    (v : SynRecord) (hnd : (l.map Prod.fst).Nodup) (h : (k, v) ∈ l) :
    lookupStore (l.foldl (fun m p => insertKey m p.1 p.2) acc) k = some v := by
  induction l generalizing acc with
  | nil => simp at h
  | cons p t ih =>
      simp only [List.map_cons] at hnd
      rcases List.mem_cons.mp h with rfl | hmem
      · have ht : k ∉ t.map Prod.fst := (List.nodup_cons.mp hnd).1
        simp only [List.foldl_cons]
        rw [foldInsert_not_mem t (insertKey acc k v) k ht]
        exact lookup_insertKey_self acc k v
      · have hnd' : (t.map Prod.fst).Nodup := (List.nodup_cons.mp hnd).2
        simp only [List.foldl_cons]
        exact ih (insertKey acc p.1 p.2) hnd' hmem

/-! # Lemmas about the revival loop of `deepRecall` -/

theorem reviveGo_cons_none (now : Nat) (a : String) (t : List String) (hot latent : Store)
    (hl : lookupStore latent a = none) :
    reviveGo now (a :: t) hot latent = reviveGo now t hot latent := by
  simp only [reviveGo, hl]

theorem reviveGo_cons_some (now : Nat) (a : String) (t : List String) (hot latent : Store)
    (m : SynRecord) (hl : lookupStore latent a = some m) :
    reviveGo now (a :: t) hot latent =
      reviveGo now t (insertKey hot a (revivedRecord m now)) (eraseKey latent a) := by
  simp only [reviveGo, hl]

theorem reviveGo_not_mem (now : Nat) (ks : List String) (hot latent : Store) (k : String)
    (h : k ∉ ks) :
    lookupStore (reviveGo now ks hot latent).1 k = lookupStore hot k ∧
      lookupStore (reviveGo now ks hot latent).2 k = lookupStore latent k := by
  induction ks generalizing hot latent with
  | nil => exact ⟨rfl, rfl⟩
  | cons a t ih =>
      have hka : k ≠ a := fun hh => h (hh ▸ List.mem_cons_self a t)
      have hkt : k ∉ t := fun hh => h (List.mem_cons_of_mem a hh)
      cases hl : lookupStore latent a with
      | none =>
          rw [reviveGo_cons_none now a t hot latent hl]
          exact ih hot latent hkt
      | some m =>
          rw [reviveGo_cons_some now a t hot latent m hl]
          have := ih (insertKey hot a (revivedRecord m now)) (eraseKey latent a) hkt
          refine ⟨?_, ?_⟩
          · rw [this.1]
            exact lookup_insertKey_ne hot a k _ (fun hh => hka hh.symm)
          · rw [this.2]
            exact lookup_eraseKey_ne latent a k (fun hh => hka hh.symm)

theorem reviveGo_mem (now : Nat) (ks : List String) (hot latent : Store) (k : String)
    (m : SynRecord) (hnd : ks.Nodup) (hk : k ∈ ks) (hl : lookupStore latent k = some m) :
    lookupStore (reviveGo now ks hot latent).1 k = some (revivedRecord m now) ∧
      lookupStore (reviveGo now ks hot latent).2 k = none := by
  induction ks generalizing hot latent with
  | nil => simp at hk
  | cons a t ih =>
      rcases List.mem_cons.mp hk with rfl | hmem
      · have hkt : k ∉ t := (List.nodup_cons.mp hnd).1
        rw [reviveGo_cons_some now k t hot latent m hl]
        have := reviveGo_not_mem now t (insertKey hot k (revivedRecord m now))
          (eraseKey latent k) k hkt
        refine ⟨?_, ?_⟩
        · rw [this.1]; exact lookup_insertKey_self hot k _
        · rw [this.2]; exact lookup_eraseKey_self latent k
      · have hnd' := (List.nodup_cons.mp hnd).2
        have hka : ¬ k = a := fun hh => (List.nodup_cons.mp hnd).1 (hh ▸ hmem)
        cases hla : lookupStore latent a with
        | none =>
            rw [reviveGo_cons_none now a t hot latent hla]
            exact ih hot latent hnd' hmem hl
        | some ma =>
            have hl' : lookupStore (eraseKey latent a) k = some m := by
              rw [lookup_eraseKey_ne latent a k (fun hh => hka hh.symm)]; exact hl
            rw [reviveGo_cons_some now a t hot latent ma hla]
            exact ih (insertKey hot a (revivedRecord ma now)) (eraseKey latent a) hnd' hmem hl'

theorem deepReviveList_nodup (latent : Store) (queries : List String) (limit : Nat)
    (hwf : WFStore latent) : (deepReviveList latent queries limit).Nodup :=
  nodup_take _ limit (jsSort_nodup _ _ (List.Nodup.filter _ hwf))

theorem deepReviveList_subset (latent : Store) (queries : List String) (limit : Nat)
    (k : String) (h : k ∈ deepReviveList latent queries limit) : k ∈ storeKeys latent := by
  have h1 : k ∈ jsSort (fun a b => latentSortWeight latent b < latentSortWeight latent a)
      ((storeKeys latent).filter (latentKeyMatches queries)) := List.mem_of_mem_take h
  exact List.mem_of_mem_filter (jsSort_subset _ _ k h1)

/-! # Lemmas about `hebbianInit` (the read-path synapse initialisation) -/

theorem hebbianInit_lookup (hot : Store) (q k : String) :
    lookupStore (hebbianInit hot q) k = (lookupStore hot k).map
      (fun r => if k = q ∧ r.synapses = none then { r with synapses := some [] } else r) := by
  by_cases hk : k = q
  · subst hk
    cases hl : lookupStore hot k with
    | none => simp [hebbianInit, hl]
    | some r =>
        cases hs : r.synapses with
        | none => simp [hebbianInit, hl, hs, lookup_insertKey_self]
        | some l => simp [hebbianInit, hl, hs]
  · cases hl : lookupStore hot q with
    | none => simp [hebbianInit, hl, hk]
    | some r =>
        cases hs : r.synapses with
        | none =>
            simp only [hebbianInit, hl, hs]
            rw [lookup_insertKey_ne hot q k _ (fun hh => hk hh.symm)]
            cases lookupStore hot k with
            | none => rfl
            | some r' => simp [hk]
        | some l => simp [hebbianInit, hl, hs, hk]

theorem hebbianInit_keys (hot : Store) (q : String) :
    storeKeys (hebbianInit hot q) = storeKeys hot := by
  cases hl : lookupStore hot q with
  | none => simp [hebbianInit, hl]
  | some r =>
      cases hs : r.synapses with
      | none =>
          simp only [hebbianInit, hl, hs]
          exact keys_insertKey_of_lookup hot q _ r hl
      | some l => simp [hebbianInit, hl, hs]

/-! # Lemmas about the Hebbian link construction -/

theorem lookupNat_insertNat_self (l : List (String × Nat)) (k : String) (v : Nat) :
    lookupNat (insertNat l k v) k = v := by
  induction l with
  | nil => simp [insertNat, lookupNat]
  | cons p rest ih =>
      by_cases h : p.1 = k
      · simp [insertNat, h, lookupNat]
      · simp [insertNat, h, lookupNat, ih]

theorem lookupNat_insertNat_ne (l : List (String × Nat)) (k k' : String) (v : Nat)
    (h : k ≠ k') : lookupNat (insertNat l k v) k' = lookupNat l k' := by
  induction l with
  | nil => simp [insertNat, lookupNat, h]
  | cons p rest ih =>
      by_cases hp : p.1 = k
      · simp [insertNat, hp, lookupNat, h]
      · simp [insertNat, hp, lookupNat, ih]

theorem synStrength_congr (h1 h2 : Store) (x y : String)
    (h : lookupStore h1 x = lookupStore h2 x) : synStrength h1 x y = synStrength h2 x y := by
  unfold synStrength
  rw [h]

theorem synStrength_some (hot : Store) (a b : String) (r : SynRecord)
    (hl : lookupStore hot a = some r) :
    synStrength hot a b = lookupNat (r.synapses.getD []) b := by
  cases hs : r.synapses with
  | none => simp [synStrength, hl, hs, lookupNat]
  | some l => simp [synStrength, hl, hs]

theorem synStrength_none (hot : Store) (a b : String) (hl : lookupStore hot a = none) :
    synStrength hot a b = 0 := by
  simp [synStrength, hl]

theorem ensureRecord_synStrength (hot : Store) (k x y : String) :
    synStrength (ensureRecord hot k) x y = synStrength hot x y := by
  cases hl : lookupStore hot k with
  | some r => simp [ensureRecord, hl]
  | none =>
      by_cases hx : x = k
      · subst hx
        rw [synStrength_some _ x y hebbianFreshRecord
            (by simp [ensureRecord, hl, lookup_insertKey_self]),
          synStrength_none hot x y hl]
        rfl
      · refine synStrength_congr _ hot x y ?_
        simp only [ensureRecord, hl]
        exact lookup_insertKey_ne hot k x _ (fun hh => hx hh.symm)

theorem ensureRecord_isSome_self (hot : Store) (k : String) :
    (lookupStore (ensureRecord hot k) k).isSome := by
  cases hl : lookupStore hot k with
  | some r => simp [ensureRecord, hl]
  | none => simp [ensureRecord, hl, lookup_insertKey_self]

theorem ensureRecord_isSome_mono (hot : Store) (k j : String)
    (h : (lookupStore hot j).isSome) : (lookupStore (ensureRecord hot k) j).isSome := by
  cases hl : lookupStore hot k with
  | some r => simpa [ensureRecord, hl] using h
  | none =>
      by_cases hj : j = k
      · subst hj; simp [ensureRecord, hl, lookup_insertKey_self]
      · simpa [ensureRecord, hl, lookup_insertKey_ne hot k j _ (fun hh => hj hh.symm)] using h

theorem ensureSynapses_synStrength (hot : Store) (k x y : String) :
    synStrength (ensureSynapses hot k) x y = synStrength hot x y := by
  cases hl : lookupStore hot k with
  | none => simp [ensureSynapses, hl]
  | some r =>
      cases hs : r.synapses with
      | some l => simp [ensureSynapses, hl, hs]
      | none =>
          by_cases hx : x = k
          · subst hx
            rw [synStrength_some _ x y { r with synapses := some [] }
              (by simp [ensureSynapses, hl, hs, lookup_insertKey_self]),
              synStrength_some hot x y r hl]
            simp [hs, lookupNat]
          · refine synStrength_congr _ hot x y ?_
            simp only [ensureSynapses, hl, hs]
            exact lookup_insertKey_ne hot k x _ (fun hh => hx hh.symm)

theorem ensureSynapses_isSome (hot : Store) (k j : String)
    (h : (lookupStore hot j).isSome) : (lookupStore (ensureSynapses hot k) j).isSome := by
  cases hl : lookupStore hot k with
  | none => simpa [ensureSynapses, hl] using h
  | some r =>
      cases hs : r.synapses with
      | some l => simpa [ensureSynapses, hl, hs] using h
      | none =>
          by_cases hj : j = k
          · subst hj; simp [ensureSynapses, hl, hs, lookup_insertKey_self]
          · simpa [ensureSynapses, hl, hs,
              lookup_insertKey_ne hot k j _ (fun hh => hj hh.symm)] using h

theorem bumpSynapse_synStrength (hot : Store) (a b x y : String) :
    synStrength (bumpSynapse hot a b) x y =
      if x = a ∧ y = b ∧ (lookupStore hot a).isSome = true then synStrength hot x y + 1
      else synStrength hot x y := by
  cases hl : lookupStore hot a with
  | none => simp [bumpSynapse, hl]
  | some r =>
      have hsome : (lookupStore hot a).isSome = true := by simp [hl]
      by_cases hx : x = a
      · subst hx
        have hl' : lookupStore (bumpSynapse hot x b) x = some { r with synapses := some (insertNat (r.synapses.getD []) b (lookupNat (r.synapses.getD []) b + 1)) } := by
          simp [bumpSynapse, hl, lookup_insertKey_self]
        rw [synStrength_some _ x y _ hl', synStrength_some hot x y r hl]
        by_cases hy : y = b
        · subst hy; simp [hsome, lookupNat_insertNat_self]
        · simp [hy, lookupNat_insertNat_ne _ b y _ (fun hh => hy hh.symm)]
      · have heq : lookupStore (bumpSynapse hot a b) x = lookupStore hot x := by
          simp only [bumpSynapse, hl]
          exact lookup_insertKey_ne hot a x _ (fun hh => hx hh.symm)
        rw [synStrength_congr (bumpSynapse hot a b) hot x y heq]
        simp [hx]

theorem bumpSynapse_isSome (hot : Store) (a b j : String)
    (h : (lookupStore hot j).isSome) : (lookupStore (bumpSynapse hot a b) j).isSome := by
  cases hl : lookupStore hot a with
  | none => simpa [bumpSynapse, hl] using h
  | some r =>
      by_cases hj : j = a
      · subst hj; simp [bumpSynapse, hl, lookup_insertKey_self]
      · simpa [bumpSynapse, hl, lookup_insertKey_ne hot a j _ (fun hh => hj hh.symm)] using h

theorem processPair_synStrength (hot : Store) (a b x y : String) (hab : a ≠ b) :
    synStrength (processPair hot a b) x y =
      if (x = a ∧ y = b) ∨ (x = b ∧ y = a) then synStrength hot x y + 1
      else synStrength hot x y := by
  have hba : b ≠ a := fun hh => hab hh.symm
  set h4 := ensureSynapses (ensureSynapses (ensureRecord (ensureRecord hot a) b) a) b with hh4
  have h4eq : ∀ u v : String, synStrength h4 u v = synStrength hot u v := by
    intro u v
    rw [hh4, ensureSynapses_synStrength, ensureSynapses_synStrength,
        ensureRecord_synStrength, ensureRecord_synStrength]
  have haSome : (lookupStore h4 a).isSome := by
    rw [hh4]
    exact ensureSynapses_isSome _ b a (ensureSynapses_isSome _ a a
      (ensureRecord_isSome_mono _ b a (ensureRecord_isSome_self hot a)))
  have hbSome : (lookupStore h4 b).isSome := by
    rw [hh4]
    exact ensureSynapses_isSome _ b b (ensureSynapses_isSome _ a b
      (ensureRecord_isSome_self (ensureRecord hot a) b))
  have hbSome' : (lookupStore (bumpSynapse h4 a b) b).isSome :=
    bumpSynapse_isSome h4 a b b hbSome
  have hpp : processPair hot a b = bumpSynapse (bumpSynapse h4 a b) b a := by
    simp only [processPair, if_neg hab, hh4]
  rw [hpp, bumpSynapse_synStrength (bumpSynapse h4 a b) b a x y,
      bumpSynapse_synStrength h4 a b x y]
  by_cases hxa : x = a
  · have hxb : ¬ x = b := by rw [hxa]; exact hab
    by_cases hyb : y = b
    · simp [hxa, hyb, hxb, hab, hba, haSome, h4eq]
    · simp [hxa, hyb, hxb, hab, hba, h4eq]
  · by_cases hxb : x = b
    · by_cases hya : y = a
      · simp [hxa, hxb, hya, hab, hba, hbSome', h4eq]
      · simp [hxa, hxb, hya, hab, hba, h4eq]
    · simp [hxa, hxb, h4eq]

theorem processPair_eq_self (hot : Store) (a : String) : processPair hot a a = hot := by
  simp [processPair]

/-- Hebbian symmetry is preserved by one pair bump. -/
theorem processPair_hebbSym (hot : Store) (a b : String) (h : HebbSym hot) :
    HebbSym (processPair hot a b) := by
  by_cases hab : a = b
  · subst hab; rwa [processPair_eq_self]
  · intro x y
    rw [processPair_synStrength hot a b x y hab, processPair_synStrength hot a b y x hab]
    by_cases hc : (x = a ∧ y = b) ∨ (x = b ∧ y = a)
    · have hc' : (y = a ∧ x = b) ∨ (y = b ∧ x = a) := by tauto
      rw [if_pos hc, if_pos (by tauto : (y = a ∧ x = b) ∨ (y = b ∧ x = a)), h x y]
    · rw [if_neg hc, if_neg (by tauto : ¬ ((y = a ∧ x = b) ∨ (y = b ∧ x = a))), h x y]

/-- Hebbian symmetry is preserved by a fold of pair bumps. -/
theorem foldPairs_hebbSym (ps : List (String × String)) (hot : Store) (h : HebbSym hot) :
    HebbSym (ps.foldl (fun h' p => processPair h' p.1 p.2) hot) := by
  induction ps generalizing hot with
  | nil => exact h
  | cons p t ihp => exact ihp (processPair hot p.1 p.2) (processPair_hebbSym hot p.1 p.2 h)


/-! # Well-formedness preservation -/

theorem insertKey_cons_eq (p : String × SynRecord) (rest : Store) (k : String)
    (v : SynRecord) (hp : p.1 = k) : insertKey (p :: rest) k v = (k, v) :: rest := by
  rcases p with ⟨k1, v1⟩
  have hk : k1 = k := hp
  simp [insertKey, hk]

theorem insertKey_cons_ne (p : String × SynRecord) (rest : Store) (k : String)
    (v : SynRecord) (hp : ¬ p.1 = k) : insertKey (p :: rest) k v = p :: insertKey rest k v := by
  rcases p with ⟨k1, v1⟩
  have hk : ¬ k1 = k := hp
  simp [insertKey, hk]

theorem mem_keys_insertKey (m : Store) (k : String) (v : SynRecord) (x : String)
    (h : x ∈ storeKeys (insertKey m k v)) : x ∈ storeKeys m ∨ x = k := by
  induction m with
  | nil =>
      simp only [insertKey, storeKeys, List.map_cons, List.map_nil, List.mem_singleton] at h
      exact Or.inr h
  | cons p rest ih =>
      by_cases hp : p.1 = k
      · rw [insertKey_cons_eq p rest k v hp] at h
        simp only [storeKeys, List.map_cons, List.mem_cons] at h ⊢
        rcases h with h1 | h1
        · exact Or.inr h1
        · exact Or.inl (Or.inr h1)
      · rw [insertKey_cons_ne p rest k v hp] at h
        simp only [storeKeys, List.map_cons, List.mem_cons] at h ⊢
        rcases h with h1 | h1
        · exact Or.inl (Or.inl h1)
        · rcases ih h1 with h2 | h2
          · exact Or.inl (Or.inr h2)
          · exact Or.inr h2

theorem WF_insertKey (m : Store) (k : String) (v : SynRecord) (h : WFStore m) :
    WFStore (insertKey m k v) := by
  induction m with
  | nil => simp [WFStore, insertKey, storeKeys]
  | cons p rest ih =>
      rw [WFStore, storeKeys] at h
      simp only [List.map_cons, List.nodup_cons] at h
      by_cases hp : p.1 = k
      · rw [WFStore, show insertKey (p :: rest) k v = (k, v) :: rest from by
          simp [insertKey, hp]]
        simp only [storeKeys, List.map_cons, List.nodup_cons]
        exact ⟨hp ▸ h.1, h.2⟩
      · rw [WFStore, show insertKey (p :: rest) k v = p :: insertKey rest k v from by
          simp [insertKey, hp]]
        simp only [storeKeys, List.map_cons, List.nodup_cons]
        refine ⟨?_, ih h.2⟩
        intro hmem
        rcases mem_keys_insertKey rest k v p.1 hmem with h' | h'
        · exact h.1 h'
        · exact hp h'

theorem WF_foldInsert (l : List (String × SynRecord)) (acc : Store) (h : WFStore acc) :
    WFStore (l.foldl (fun m p => insertKey m p.1 p.2) acc) := by
  induction l generalizing acc with
  | nil => exact h
  | cons p t ih =>
      simp only [List.foldl_cons]
      exact ih (insertKey acc p.1 p.2) (WF_insertKey acc p.1 p.2 h)

theorem WF_applyLTD_latent (hot latent : Store) (now : Nat) (h : WFStore latent) :
    WFStore (applyLTD hot latent now).2 :=
  WF_foldInsert (applyLTDRec now hot).2 latent h

theorem lookup_applyLTD_latent_demoted (hot latent : Store) (now : Nat) (k : String)
    (r : SynRecord) (hwf : WFStore hot) (h : lookupStore hot k = some r)
    (hp : r.pinned = false) (hw : r.weight * DECAY_RATE < FORGET_THRESHOLD) :
    lookupStore (applyLTD hot latent now).2 k =
      some (demotedRecord r (r.weight * DECAY_RATE) now) := by
  have hmem := applyLTDRec_demoted_mem now hot k r h hp hw
  have hnd : ((applyLTDRec now hot).2.map Prod.fst).Nodup :=
    List.Nodup.sublist (applyLTDRec_demoted_keys_sublist now hot) hwf
  exact foldInsert_mem _ latent k _ hnd hmem

/-! # Lemmas about the empty query -/

theorem listIsInfix_nil (l : List Char) : listIsInfix [] l = true := by
  cases l with
  | nil => rfl
  | cons c cs => simp [listIsInfix, listStartsWith]

theorem jsIncludes_empty (a : String) : jsIncludes a "" = true := by
  have : ("" : String).toList = [] := rfl
  rw [jsIncludes, this]
  exact listIsInfix_nil a.toList

theorem filter_includes_empty (ks : List String) :
    ks.filter (fun k => jsIncludes "" k || jsIncludes k "") = ks :=
  List.filter_eq_self.mpr (fun k _ => by rw [jsIncludes_empty k, Bool.or_true])

/-! # Lemmas about the pinned view of a store -/

theorem pinnedView_insertKey (hot : Store) (k : String) (v r : SynRecord)
    (h : lookupStore hot k = some r) (hpin : v.pinned = r.pinned) (hrule : v.rule = r.rule) :
    (insertKey hot k v).map pinnedView = hot.map pinnedView := by
  induction hot with
  | nil => simp [lookupStore] at h
  | cons p rest ih =>
      by_cases hp : p.1 = k
      · have : p.2 = r := by simpa [lookupStore, hp] using h
        subst this
        simp [insertKey, hp, pinnedView, hpin, hrule]
      · simp only [lookupStore, if_neg hp] at h
        simp [insertKey, hp, pinnedView, ih h]

theorem pinnedView_mutateEach_ltp (hot : Store) (ks : List String) (now : Nat) :
    (mutateEach hot ks (ltpBump now)).map pinnedView = hot.map pinnedView := by
  induction ks generalizing hot with
  | nil => rfl
  | cons a t ih =>
      cases hl : lookupStore hot a with
      | none => rw [mutateEach_cons_none hot a t _ hl]; exact ih hot
      | some r =>
          rw [mutateEach_cons_some hot a t _ r hl, ih (insertKey hot a (ltpBump now r))]
          exact pinnedView_insertKey hot a (ltpBump now r) r hl rfl rfl

theorem pinnedView_hebbianInit (hot : Store) (q : String) :
    (hebbianInit hot q).map pinnedView = hot.map pinnedView := by
  cases hl : lookupStore hot q with
  | none => simp [hebbianInit, hl]
  | some r =>
      cases hs : r.synapses with
      | some l => simp [hebbianInit, hl, hs]
      | none =>
          simp only [hebbianInit, hl, hs]
          exact pinnedView_insertKey hot q _ r hl rfl rfl

theorem allPinned_congr (l1 l2 : Store) (h : l1.map pinnedView = l2.map pinnedView) :
    (l1.filter (fun p => p.2.pinned)).map (fun p => (p.1, p.2.rule)) =
      (l2.filter (fun p => p.2.pinned)).map (fun p => (p.1, p.2.rule)) := by
  induction l1 generalizing l2 with
  | nil =>
      cases l2 with
      | nil => rfl
      | cons q t2 => simp at h
  | cons p t1 ih =>
      cases l2 with
      | nil => simp at h
      | cons q t2 =>
          simp only [List.map_cons, List.cons.injEq] at h
          obtain ⟨hkey, hpin, hrule⟩ :
              p.1 = q.1 ∧ p.2.pinned = q.2.pinned ∧ p.2.rule = q.2.rule := by
            simpa [pinnedView, Prod.ext_iff] using h.1
          by_cases hp : p.2.pinned
          · have hq : q.2.pinned := by rwa [hpin] at hp
            simp [List.filter_cons, hp, hq, hkey, hrule, ih t2 h.2]
          · have hq : ¬ q.2.pinned := by rwa [hpin] at hp
            simp [List.filter_cons, hp, hq, ih t2 h.2]

/-! # State lemmas about `recallOp` and `forgetOp` -/

theorem recallOp_hot_nondeep (st : State) (q : String) (lim : Nat) (env : RecallEnv)
    (now : Nat) :
    ((recallOp st q false lim env now).1).hot =
      hebbianInit (mutateEach st.hot (recallTopConcepts st.hot q) (ltpBump now)) (jsToLower q) :=
  rfl

theorem recallTop_nodup (hot : Store) (q : String) (hwf : WFStore hot) :
    (recallTopConcepts hot q).Nodup :=
  nodup_take _ 5 (jsSort_nodup _ _ (List.Nodup.filter _ hwf))

theorem recallOp_WF (st : State) (q : String) (lim : Nat) (env : RecallEnv) (now : Nat)
    (hwf : WFStore st.hot) : WFStore ((recallOp st q false lim env now).1).hot := by
  rw [WFStore, recallOp_hot_nondeep, hebbianInit_keys, mutateEach_keys]
  exact hwf

theorem recallOp_pinned_mono (st : State) (q : String) (lim : Nat) (env : RecallEnv)
    (now : Nat) (key : String) (r : SynRecord) (hwf : WFStore st.hot)
    (h : lookupStore st.hot key = some r) :
    ∃ r', lookupStore ((recallOp st q false lim env now).1).hot key = some r' ∧
      r'.pinned = r.pinned ∧ r'.rule = r.rule ∧ r'.firstSeen = r.firstSeen ∧
      r.weight ≤ r'.weight := by
  have hnd := recallTop_nodup st.hot q hwf
  obtain ⟨r1, hr1, hpin1, hrule1, hfs1, hw1⟩ :
      ∃ r1, lookupStore (mutateEach st.hot (recallTopConcepts st.hot q) (ltpBump now)) key =
          some r1 ∧ r1.pinned = r.pinned ∧ r1.rule = r.rule ∧ r1.firstSeen = r.firstSeen ∧
          r.weight ≤ r1.weight := by
    by_cases hmem : key ∈ recallTopConcepts st.hot q
    · refine ⟨ltpBump now r, ?_, rfl, rfl, rfl, ?_⟩
      · rw [mutateEach_mem st.hot _ _ key hnd hmem, h]; rfl
      · show r.weight ≤ r.weight + 1/10
        linarith
    · exact ⟨r, by rw [mutateEach_not_mem st.hot _ _ key hmem]; exact h, rfl, rfl, rfl, le_refl _⟩
  rw [recallOp_hot_nondeep, hebbianInit_lookup, hr1]
  by_cases hc : key = jsToLower q ∧ r1.synapses = none
  · exact ⟨{ r1 with synapses := some [] }, by simp [hc], hpin1, hrule1, hfs1, hw1⟩
  · exact ⟨r1, by simp [hc], hpin1, hrule1, hfs1, hw1⟩

theorem forgetOp_WF (st : State) (now : Nat) (hwf : WFStore st.hot) :
    WFStore (forgetOp st now).hot :=
  List.Nodup.sublist (applyLTDRec_keys_sublist now st.hot) hwf

theorem forgetOp_pinned (st : State) (now : Nat) (key : String) (r : SynRecord)
    (h : lookupStore st.hot key = some r) (hp : r.pinned = true) :
    lookupStore (forgetOp st now).hot key = some r :=
  applyLTDRec_pinned now st.hot key r h hp

/-! # The claims

Each claim of the specification audit gets exactly one theorem (plus a
counterexample and/or witness where the status requires it). -/

/-- C1: the claim says recall never fails wholesale and that
`recall(q, {deep = true})` always returns a well-formed response with a
`deep_recall` field.  In the code, `deepRecall` reads the unbound
identifier `query` while building its return object (skill.js 850), so
after persisting the revival it throws `ReferenceError` and `recall`
with `deep = true` always rejects — for every store state, query,
search environment and limit. -/
theorem C1_recall_deep_throws (st : State) (query : String) (reviveLimit : Nat)
    (env : RecallEnv) (now : Nat) :
    (recallOp st query true reviveLimit env now).2 = Except.error JsError.referenceErrorQuery :=
  rfl

/-- C2 (counterexample): after `distill --force` on the single log
`2025-01-01.md` = `"memory system database cache"`, the hot weight of
`memory` is 9/10 — the end-of-distillation LTD decay has already been
applied — not 1.0 as claimed. -/
theorem C2_cold_start_counterexample :
    (lookupStore stC2.hot "memory").map SynRecord.weight ≠ some 1 ∧
      (lookupStore stC2.hot "memory").map SynRecord.weight = some (9/10) := by
  decide

/-- C2 (amended): the cold-start ingest scenario holds with
`weight = 0.9` in place of `weight = 1.0`: each of the four keys has
`count = 1`, `refs = ["2025-01-01.md"]`, every unordered pair is linked
bidirectionally with strength 1, and the log file has moved to the
archive. -/
theorem C2_cold_start_amended :
    ((lookupStore stC2.hot "memory").map fun r => (r.weight, r.count, r.refs)) =
        some (9/10, some 1, ["2025-01-01.md"]) ∧
    ((lookupStore stC2.hot "system").map fun r => (r.weight, r.count, r.refs)) =
        some (9/10, some 1, ["2025-01-01.md"]) ∧
    ((lookupStore stC2.hot "database").map fun r => (r.weight, r.count, r.refs)) =
        some (9/10, some 1, ["2025-01-01.md"]) ∧
    ((lookupStore stC2.hot "cache").map fun r => (r.weight, r.count, r.refs)) =
        some (9/10, some 1, ["2025-01-01.md"]) ∧
    synStrength stC2.hot "memory" "system" = 1 ∧ synStrength stC2.hot "system" "memory" = 1 ∧
    synStrength stC2.hot "memory" "database" = 1 ∧ synStrength stC2.hot "database" "memory" = 1 ∧
    synStrength stC2.hot "memory" "cache" = 1 ∧ synStrength stC2.hot "cache" "memory" = 1 ∧
    synStrength stC2.hot "system" "database" = 1 ∧ synStrength stC2.hot "database" "system" = 1 ∧
    synStrength stC2.hot "system" "cache" = 1 ∧ synStrength stC2.hot "cache" "system" = 1 ∧
    synStrength stC2.hot "database" "cache" = 1 ∧ synStrength stC2.hot "cache" "database" = 1 ∧
    stC2.activeFiles = [] ∧
    stC2.archiveFiles = [("2025-01-01.md", "memory system database cache")] := by
  repeat' apply And.intro
  all_goals decide

/-- C3 (counterexample): a key can sit in both stores at once.  The
concept `memory` is distilled, demoted to the latent store by fifteen
`forget` cycles, and then re-ingested by a later distillation of a new
log; afterwards `memory` is present in the hot *and* the latent store —
the claimed hot/cold disjointness fails on a reachable state. -/
theorem C3_disjointness_counterexample :
    (lookupStore stC3c.hot "memory").isSome = true ∧
      (lookupStore stC3c.latent "memory").isSome = true := by
  decide

/-- C4 (counterexample): Hebbian symmetry is not preserved.  After
`alpha` and `beta` are linked by distillation, `alpha` reinforced once
by recall, `beta` demoted by fifteen LTD cycles and then revived by
`deep-recall`, the hot store has `alpha.synapses.beta = 1` but
`beta.synapses.alpha` absent (strength 0): the link is one-sided. -/
theorem C4_hebbian_symmetry_counterexample :
    synStrength stC4d.hot "alpha" "beta" = 1 ∧
    synStrength stC4d.hot "beta" "alpha" = 0 ∧
    ¬ synStrength stC4d.hot "alpha" "beta" = synStrength stC4d.hot "beta" "alpha" := by
  decide

/-- C5 (counterexample): `recall_count` is *not* reset on all records.
A non-pinned record with `recall_count = 2` (< 3) is returned untouched
by `applyUnusedRecallPenalty` — its `recall_count` stays 2 instead of
being reset to 0 as claimed. -/
theorem C5_reset_counterexample :
    (lookupStore (applyUnusedRecallPenalty [("kw", recC5a)]) "kw").map SynRecord.recall_count
        = some (some 2) ∧
      (lookupStore (applyUnusedRecallPenalty [("kw", recC5a)]) "kw").map SynRecord.recall_count
        ≠ some (some 0) := by
  decide

/-- C5 (amended): `applyUnusedRecallPenalty` maps every record
pointwise; pinned records and records with `recall_count < 3` are left
untouched (including their `recall_count`), and exactly the non-pinned
records with `recall_count ≥ 3` have `recall_count` reset to 0, with
the weight penalty `0.1 × recall_count` applied precisely when
`count < 0.5 × recall_count`. -/
theorem C5_predictive_ltd_amended (hot : Store) (k : String) (r : SynRecord)
    (h : lookupStore hot k = some r) :
    lookupStore (applyUnusedRecallPenalty hot) k = some (penaltyTransform r) ∧
    (r.pinned = true → penaltyTransform r = r) ∧
    (r.recall_count.getD 0 < 3 → penaltyTransform r = r) ∧
    (r.pinned = false → 3 ≤ r.recall_count.getD 0 →
      (penaltyTransform r).recall_count = some 0 ∧
      ((r.count.getD 0 : ℚ) < (1/2) * (r.recall_count.getD 0 : ℚ) →
        (penaltyTransform r).weight = r.weight - (1/10) * (r.recall_count.getD 0 : ℚ)) ∧
      (¬ (r.count.getD 0 : ℚ) < (1/2) * (r.recall_count.getD 0 : ℚ) →
        (penaltyTransform r).weight = r.weight)) := by
  refine ⟨?_, ?_, ?_, ?_⟩
  · rw [show applyUnusedRecallPenalty hot = hot.map (fun p => (p.1, penaltyTransform p.2)) from rfl,
        lookup_mapStore, h]
    rfl
  · intro hp
    simp [penaltyTransform, hp]
  · intro hlt
    by_cases hp : r.pinned
    · simp [penaltyTransform, hp]
    · simp [penaltyTransform, hp, hlt]
  · intro hp h3
    have hge : ¬ r.recall_count.getD 0 < 3 := not_lt.mpr h3
    refine ⟨?_, ?_, ?_⟩
    · unfold penaltyTransform
      rw [hp]
      simp only [Bool.false_eq_true, if_false, if_neg hge]
    · intro hcc
      have hc : (r.count.getD 0 : ℚ) < (r.recall_count.getD 0 : ℚ) * (1/2) := by
        rwa [mul_comm] at hcc
      unfold penaltyTransform
      rw [hp]
      simp only [Bool.false_eq_true, if_false, if_neg hge, mul_comm]
      rw [if_pos hcc]
    · intro hnc
      have hc : ¬ (r.count.getD 0 : ℚ) < (r.recall_count.getD 0 : ℚ) * (1/2) := by
        rw [mul_comm]
        exact hnc
      unfold penaltyTransform
      rw [hp]
      simp only [Bool.false_eq_true, if_false, if_neg hge, if_neg hc]

/-- C5 (witness): the amended penalty theorem applied to a concrete
record with `recall_count = 4` and `count = 1`. -/
theorem C5_predictive_ltd_amended_witness :
    lookupStore (applyUnusedRecallPenalty [("kw", recC5b)]) "kw" = some (penaltyTransform recC5b) ∧
      (penaltyTransform recC5b).recall_count = some 0 ∧
      (penaltyTransform recC5b).weight = recC5b.weight - (1/10) * ((4 : Nat) : ℚ) := by
  have h := C5_predictive_ltd_amended [("kw", recC5b)] "kw" recC5b (by decide)
  refine ⟨h.1, (h.2.2.2 (by decide) (by decide)).1, ?_⟩
  have := (h.2.2.2 (by decide) (by decide)).2.1 (by
    show ((recC5b.count.getD 0 : Nat) : ℚ) < (1/2) * ((recC5b.recall_count.getD 0 : Nat) : ℚ)
    norm_num [recC5b])
  simpa [recC5b] using this

/-- C10: the `memorize` command unconditionally replaces any existing
hot record at the lowercased concept key by the fresh pinned record
`{weight 2.5, count 1, refs [], pinned, rule = content, source
"explicit_memorize", firstSeen = lastSeen = lastAccess = now}` —
discarding any accumulated count, refs, synapses, confidence and prior
rule and resetting first_seen — and leaves every other key unchanged. -/
theorem C10_memorize_replaces (hot : Store) (concept content : String) (now : Nat) :
    lookupStore (memorizeOp hot concept content now) (jsToLower concept) =
        some (memorizeRecord content now) ∧
    (memorizeRecord content now).weight = 5/2 ∧
    (memorizeRecord content now).count = some 1 ∧
    (memorizeRecord content now).refs = [] ∧
    (memorizeRecord content now).pinned = true ∧
    (memorizeRecord content now).rule = some content ∧
    (memorizeRecord content now).source = some "explicit_memorize" ∧
    (memorizeRecord content now).firstSeen = some now ∧
    (memorizeRecord content now).lastSeen = some now ∧
    (memorizeRecord content now).lastAccess = some now ∧
    (memorizeRecord content now).synapses = none ∧
    (memorizeRecord content now).recall_count = none ∧
    (memorizeRecord content now).confidence = none ∧
    (∀ k, k ≠ jsToLower concept →
      lookupStore (memorizeOp hot concept content now) k = lookupStore hot k) := by
  refine ⟨lookup_insertKey_self hot _ _, rfl, rfl, rfl, rfl, rfl, rfl, rfl, rfl, rfl, rfl, rfl,
    rfl, ?_⟩
  intro k hk
  exact lookup_insertKey_ne hot _ k _ (fun hh => hk hh.symm)

/-- C10 (witness): memorizing over an existing pinned record with
weight 9, synapses and a prior rule replaces it wholesale; an unrelated
key is untouched. -/
theorem C10_memorize_replaces_witness :
    lookupStore (memorizeOp hotC10 "OLD" "new rule" 5) (jsToLower "OLD") =
        some (memorizeRecord "new rule" 5) ∧
      lookupStore (memorizeOp hotC10 "OLD" "new rule" 5) "other" = lookupStore hotC10 "other" := by
  have h := C10_memorize_replaces hotC10 "OLD" "new rule" 5
  exact ⟨h.1, h.2.2.2.2.2.2.2.2.2.2.2.2.2 "other" (by decide)⟩

/-- C6 (counterexample): the revival round-trip does *not* preserve
`first_seen`.  A record with `firstSeen = 11` is demoted by `applyLTD`
and revived by `deepRecall("c")`; the revived hot record has weight 0.5
and the original refs, but its `firstSeen` is absent (`none`), not the
preserved timestamp the claim requires. -/
theorem C6_revival_counterexample :
    recC6.firstSeen = some 11 ∧
    (lookupStore c6Revived.1 "c").map SynRecord.firstSeen = some none ∧
    (lookupStore c6Revived.1 "c").map SynRecord.firstSeen ≠ some (some 11) ∧
    (lookupStore c6Revived.1 "c").map SynRecord.weight = some (1/2) ∧
    (lookupStore c6Revived.1 "c").map SynRecord.refs = some ["2024-12-30.md"] ∧
    lookupStore c6Revived.2.1 "c" = none := by
  repeat' apply And.intro
  all_goals decide

/-- C7 (counterexample): recall reinforces only the five activated
concepts of highest weight.  With six concepts all being substrings of
the query, the lowest-weight term `a6` is present in the store and
contained in the query, yet after `recall` its weight and recall_count
are unchanged — the claimed strict increase fails. -/
theorem C7_recall_reinforcement_counterexample :
    lookupStore stC7.hot "a6" = some (recC7 1) ∧
    jsIncludes qC7 "a6" = true ∧
    (lookupStore stC7after.hot "a6").map (fun r => (r.weight, r.recall_count, r.firstSeen)) =
      some (1, some 0, some 0) := by
  repeat' apply And.intro
  all_goals decide

/-- C8 (counterexample): a pinned record's weight can drop below its
initial value.  The hot store holds the pinned record `workflow-q` with
weight 2.5; five recalls of `"q"` accumulate five workflow
observations with pattern `q`, and the next `distill` (with no logs to
process) lets the Observer batch promotion overwrite the record with a
fresh instinct of weight 1.0 — still pinned, but 1 < 2.5. -/
theorem C8_pinned_stability_counterexample :
    lookupStore stC8a.hot "workflow-q" = some recC8 ∧
    recC8.pinned = true ∧
    recC8.weight = 5/2 ∧
    (lookupStore stC8c.hot "workflow-q").map (fun r => (r.weight, r.pinned)) = some (1, true) ∧
    ¬ ((5 : ℚ)/2 ≤ 1) := by
  repeat' apply And.intro
  all_goals decide

/-- C9 (counterexample): the empty query does not produce an empty
result.  JS `k.includes("")` is true for every key, so with one concept
`aa` in the hot store, `recall("")` returns `aa` as an activated
concept and reinforces it (weight 1 → 1.1) — contradicting the claimed
empty activation list and absence of reinforcement. -/
theorem C9_empty_query_counterexample :
    ((recallOp stC9 "" false 5 envOff 3).2.toOption.map RecallResult.activated_concepts) =
        some ["aa"] ∧
    some ["aa"] ≠ some ([] : List String) ∧
    (lookupStore ((recallOp stC9 "" false 5 envOff 3).1.hot) "aa").map SynRecord.weight =
        some (11/10) := by
  repeat' apply And.intro
  all_goals decide

/-- C3 (amended): the migration operations themselves preserve
disjointness of the moved key — when `apply_LTD` (the `forget` command)
demotes a non-pinned record whose decayed weight falls below the forget
threshold, the key is deleted from the hot store and appears in the
latent store with `archived_at` stamped and `original_weight` equal to
the post-decay weight.  (Distill ingestion, by contrast, does not
consult the latent store; see the counterexample.) -/
theorem C3_demotion_removes_from_hot (st : State) (now : Nat) (k : String) (r : SynRecord)
    (hwf : WFStore st.hot) (h : lookupStore st.hot k = some r) (hp : r.pinned = false)
    (hw : r.weight * DECAY_RATE < FORGET_THRESHOLD) :
    lookupStore (forgetOp st now).hot k = none ∧
      lookupStore (forgetOp st now).latent k =
        some (demotedRecord r (r.weight * DECAY_RATE) now) := by
  constructor
  · exact applyLTDRec_demoted_gone now st.hot k r hwf h hp hw
  · exact lookup_applyLTD_latent_demoted st.hot st.latent now k r hwf h hp hw

/-- C3 (witness): the demotion-disjointness theorem applied to a
concrete weak record. -/
theorem C3_demotion_removes_from_hot_witness :
    lookupStore (forgetOp stC3w 20).hot "c" = none ∧
      lookupStore (forgetOp stC3w 20).latent "c" =
        some (demotedRecord recC6 (recC6.weight * DECAY_RATE) 20) :=
  C3_demotion_removes_from_hot stC3w 20 "c" recC6 (by decide) (by decide) (by decide) (by decide)

/-- C4 (amended): Hebbian symmetry is an invariant of the link
*construction*: if every link is mirrored with equal strength before
`buildHebbianLinks`, the same holds afterwards (each co-occurring pair
increments both directions).  It is *not* preserved by `apply_LTD`
demotion or `deep_recall` revival — see the counterexample. -/
theorem C4_buildHebbianLinks_preserves_symmetry (hot : Store)
    (m : List (String × List String)) (h : HebbSym hot) :
    HebbSym (buildHebbianLinks hot m) := by
  induction m generalizing hot with
  | nil => exact h
  | cons entry rest ih => exact ih _ (foldPairs_hebbSym (orderedPairs entry.2) hot h)

/-- C4 (witness): link construction from the empty store yields a
symmetric store. -/
theorem C4_buildHebbianLinks_preserves_symmetry_witness : HebbSym hebbC4w :=
  C4_buildHebbianLinks_preserves_symmetry [] [("f.md", ["x", "y", "z"])]
    (fun _ _ => rfl)

/-- C6 (amended): the revival round-trip holds for `weight`, `refs` and
latent removal, but not for `first_seen`.  If `apply_LTD` demotes the
non-pinned concept `c` and a subsequent `deep_recall` whose queries
match `c` revives it (i.e. `c` is among the keys chosen for revival),
then `c` is in the hot store as the fresh record with
`weight = REVIVED_WEIGHT`, the *original* `refs`,
`last_access = revived_at = now`, `revived_from = "latent"`, and
`first_seen` absent (`none`, JS `undefined`) — the demoted record's
`first_seen` is discarded — and `c` is gone from the latent store. -/
theorem C6_revival_roundtrip_amended (hot latent : Store) (queries : List String)
    (lim now now' : Nat) (c : String) (r : SynRecord)
    (hwfHot : WFStore hot) (hwfLat : WFStore latent)
    (h : lookupStore hot c = some r) (hp : r.pinned = false)
    (hw : r.weight * DECAY_RATE < FORGET_THRESHOLD)
    (hrev : c ∈ deepReviveList (applyLTD hot latent now).2 queries lim) :
    lookupStore (deepRecallOp (applyLTD hot latent now).1 (applyLTD hot latent now).2
        queries lim now').1 c =
      some (revivedRecord (demotedRecord r (r.weight * DECAY_RATE) now) now') ∧
    (revivedRecord (demotedRecord r (r.weight * DECAY_RATE) now) now').weight =
      REVIVED_WEIGHT ∧
    (revivedRecord (demotedRecord r (r.weight * DECAY_RATE) now) now').refs = r.refs ∧
    (revivedRecord (demotedRecord r (r.weight * DECAY_RATE) now) now').firstSeen = none ∧
    (revivedRecord (demotedRecord r (r.weight * DECAY_RATE) now) now').lastAccess =
      some now' ∧
    (revivedRecord (demotedRecord r (r.weight * DECAY_RATE) now) now').revivedFrom =
      some "latent" ∧
    (revivedRecord (demotedRecord r (r.weight * DECAY_RATE) now) now').revivedAt =
      some now' ∧
    lookupStore (deepRecallOp (applyLTD hot latent now).1 (applyLTD hot latent now).2
        queries lim now').2.1 c = none := by
  have hlat : lookupStore (applyLTD hot latent now).2 c =
      some (demotedRecord r (r.weight * DECAY_RATE) now) :=
    lookup_applyLTD_latent_demoted hot latent now c r hwfHot h hp hw
  have hwfd : WFStore (applyLTD hot latent now).2 :=
    WF_applyLTD_latent hot latent now hwfLat
  have hnd := deepReviveList_nodup (applyLTD hot latent now).2 queries lim hwfd
  have hrg := reviveGo_mem now' (deepReviveList (applyLTD hot latent now).2 queries lim)
    (applyLTD hot latent now).1 (applyLTD hot latent now).2 c
    (demotedRecord r (r.weight * DECAY_RATE) now) hnd hrev hlat
  exact ⟨hrg.1, rfl, rfl, rfl, rfl, rfl, rfl, hrg.2⟩

/-- C6 (witness): the amended round-trip theorem applied to a concrete
demote-and-revive run. -/
theorem C6_revival_roundtrip_amended_witness :
    lookupStore (deepRecallOp (applyLTD [("c", recC6)] [] 20).1
        (applyLTD [("c", recC6)] [] 20).2 ["c"] 5 30).1 c6Key =
      some (revivedRecord (demotedRecord recC6 (recC6.weight * DECAY_RATE) 20) 30) ∧
    lookupStore (deepRecallOp (applyLTD [("c", recC6)] [] 20).1
        (applyLTD [("c", recC6)] [] 20).2 ["c"] 5 30).2.1 c6Key = none := by
  have h := C6_revival_roundtrip_amended [("c", recC6)] [] ["c"] 5 20 30 c6Key recC6
    (by decide) (by decide) (by decide) (by decide) (by decide) (by decide)
  exact ⟨h.1, h.2.2.2.2.2.2.2⟩

/-- C7 (amended): recall reinforces exactly the activated concepts that
rank in the top 5 by weight: for such a term T, `recall(q)` adds 0.1 to
its weight, increments `recall_count` by one, and leaves `first_seen`
(and the pinned flag) untouched.  Terms outside the top 5 are not
reinforced — see the counterexample. -/
theorem C7_recall_reinforces_top5 (st : State) (q : String) (lim : Nat) (env : RecallEnv)
    (now : Nat) (T : String) (r : SynRecord) (hwf : WFStore st.hot)
    (h : lookupStore st.hot T = some r) (htop : T ∈ recallTopConcepts st.hot q) :
    ∃ r', lookupStore ((recallOp st q false lim env now).1).hot T = some r' ∧
      r'.weight = r.weight + 1/10 ∧
      r'.recall_count = some (r.recall_count.getD 0 + 1) ∧
      r'.firstSeen = r.firstSeen ∧
      r'.pinned = r.pinned := by
  have hnd := recallTop_nodup st.hot q hwf
  have h1 : lookupStore (mutateEach st.hot (recallTopConcepts st.hot q) (ltpBump now)) T =
      some (ltpBump now r) := by
    rw [mutateEach_mem st.hot _ _ T hnd htop, h]
    rfl
  rw [recallOp_hot_nondeep, hebbianInit_lookup, h1]
  by_cases hc : T = jsToLower q ∧ (ltpBump now r).synapses = none
  · exact ⟨{ ltpBump now r with synapses := some [] }, by simp [hc], rfl, rfl, rfl, rfl⟩
  · exact ⟨ltpBump now r, by simp [hc], rfl, rfl, rfl, rfl⟩

/-- C7 (witness): the top-5 reinforcement theorem applied to the
highest-weight concept of the six-concept store. -/
theorem C7_recall_reinforces_top5_witness :
    ∃ r', lookupStore ((recallOp stC7 qC7 false 5 envOff 7).1).hot "a1" = some r' ∧
      r'.weight = (recC7 2).weight + 1/10 ∧
      r'.recall_count = some ((recC7 2).recall_count.getD 0 + 1) ∧
      r'.firstSeen = (recC7 2).firstSeen ∧
      r'.pinned = (recC7 2).pinned :=
  C7_recall_reinforces_top5 stC7 qC7 5 envOff 7 "a1" (recC7 2) (by decide) (by decide)
    (by decide)

/-- C8 (amended): pinned stability holds for `recall` and `forget`
sequences: a pinned record stays in the hot store, stays pinned, and
its weight never drops below its initial value (recall may only raise
it; LTD and the predictive penalty skip pinned records).  A `distill`
whose Observer batch promotion reuses the record's key as an instinct
id replaces the record with weight 1.0 — see the counterexample. -/
theorem C8_pinned_stability_amended (steps : List Step) (st : State) (key : String)
    (r : SynRecord) (hwf : WFStore st.hot) (h : lookupStore st.hot key = some r)
    (hp : r.pinned = true) :
    ∃ r', lookupStore (runSteps st steps).hot key = some r' ∧ r'.pinned = true ∧
      r.weight ≤ r'.weight := by
  induction steps generalizing st r with
  | nil => exact ⟨r, h, hp, le_refl _⟩
  | cons s rest ih =>
      rcases s with ⟨q, env, now⟩ | now
      · obtain ⟨r1, hr1, hpin1, _, _, hw1⟩ :=
          recallOp_pinned_mono st q 5 env now key r hwf h
        obtain ⟨r', hr', hp', hw'⟩ := ih ((recallOp st q false 5 env now).1) r1
          (recallOp_WF st q 5 env now hwf) hr1 (hpin1.trans hp)
        exact ⟨r', hr', hp', le_trans hw1 hw'⟩
      · obtain ⟨r', hr', hp', hw'⟩ := ih (forgetOp st now) r (forgetOp_WF st now hwf)
          (forgetOp_pinned st now key r h hp) hp
        exact ⟨r', hr', hp', hw'⟩

/-- C8 (witness): pinned stability over one recall and one forget,
starting from the store that holds the pinned `workflow-q` record. -/
theorem C8_pinned_stability_amended_witness :
    ∃ r', lookupStore (runSteps stC8a stepsC8w).hot "workflow-q" = some r' ∧
      r'.pinned = true ∧ recC8.weight ≤ r'.weight :=
  C8_pinned_stability_amended stepsC8w stC8a "workflow-q" recC8 (by decide) (by decide)
    (by decide)

/-- Spreading activation finds nothing when the query's key is absent
from the store (and then mutates nothing). -/
theorem getHebbian_none (hot : Store) (q : String) (topN : Nat)
    (h : lookupStore hot (jsToLower q) = none) :
    getHebbianAssociations hot q topN = (hot, []) := by
  simp [getHebbianAssociations, hebbianInit, h, jsSort]

theorem lookup_recallLTP_empty (st : State) (now : Nat)
    (hq : lookupStore st.hot "" = none) :
    lookupStore (recallLTP st "" now) "" = none := by
  apply lookup_not_mem_keys
  rw [show recallLTP st "" now = mutateEach st.hot (recallTopConcepts st.hot "") (ltpBump now)
      from rfl, mutateEach_keys]
  intro hmem
  obtain ⟨v, hv⟩ := lookup_of_mem_keys st.hot "" hmem
  rw [hq] at hv
  exact Option.noConfusion hv

theorem recallExpanded_empty (st : State) (now : Nat)
    (hq : lookupStore st.hot "" = none) : recallExpanded st "" now = [""] := by
  unfold recallExpanded
  rw [getHebbian_none (recallLTP st "" now) "" 3 (lookup_recallLTP_empty st now hq)]

theorem recallHot2_empty (st : State) (now : Nat) (hq : lookupStore st.hot "" = none) :
    recallHot2 st "" now = recallLTP st "" now := by
  unfold recallHot2
  rw [getHebbian_none (recallLTP st "" now) "" 3 (lookup_recallLTP_empty st now hq)]

theorem recallRawResults_empty_query (st : State) (env : RecallEnv) (now : Nat)
    (hvec : env.vectorLoaded = false) (hq : lookupStore st.hot "" = none) :
    recallRawResults st env (recallExpanded st "" now) = [] := by
  have hev : recallEffVector env = none := by rw [recallEffVector, hvec]; rfl
  have huv : recallUseVector env = false := by rw [recallUseVector, hev]
  rw [recallRawResults, huv, recallExpanded_empty st now hq]
  simp only [Bool.false_eq_true, if_false]
  rw [recallLocalResults]
  by_cases hl : env.localFails
  · simp [hl]
  · simp only [hl, Bool.false_eq_true, if_false]
    rfl

/-- C9 (amended): the empty query string is a substring of every key,
so `recall("")` activates *every* hot key: the activated-concept list
is the top 5 of all keys by weight (each of which is reinforced), the
pinned-rule list contains every pinned record, and — because the empty
query tokenises to nothing — the local search contributes no results,
so with the vector path unavailable the search-result list is empty.
On an empty hot store this degenerates to the claimed empty result. -/
theorem C9_empty_query_amended (st : State) (lim : Nat) (env : RecallEnv) (now : Nat)
    (hvec : env.vectorLoaded = false) (hq : lookupStore st.hot "" = none) :
    (recallOp st "" false lim env now).2 =
      Except.ok (recallBaseResult st "" false env now) ∧
    (recallBaseResult st "" false env now).activated_concepts =
      (jsSort (fun a b => weightOf st.hot b < weightOf st.hot a) (storeKeys st.hot)).take 5 ∧
    (recallBaseResult st "" false env now).search_results = [] ∧
    (recallBaseResult st "" false env now).pinned_rules = allPinnedRules st.hot := by
  refine ⟨rfl, ?_, ?_, ?_⟩
  · show recallTopConcepts st.hot "" = _
    unfold recallTopConcepts
    rw [filter_includes_empty (storeKeys st.hot)]
  · show (if !(recallRawResults st env (recallExpanded st "" now)).isEmpty && !false then
        sortRecallResultsWithDynamicWeights env.logFn (recallHot2 st "" now) now
          (recallRawResults st env (recallExpanded st "" now)) ""
      else recallRawResults st env (recallExpanded st "" now)) = []
    rw [recallRawResults_empty_query st env now hvec hq]
    rfl
  · show recallPinnedRules (recallHot2 st "" now) "" = allPinnedRules st.hot
    have hcond : recallPinnedRules (recallHot2 st "" now) "" =
        ((recallHot2 st "" now).filter (fun p => p.2.pinned)).map (fun p => (p.1, p.2.rule)) := by
      rw [recallPinnedRules]
      congr 1
      apply List.filter_congr
      intro p _
      rw [show jsToLower "" = "" from rfl, jsIncludes_empty p.1, Bool.or_true, Bool.and_true]
    rw [hcond]
    have hview : (recallHot2 st "" now).map pinnedView = st.hot.map pinnedView := by
      rw [recallHot2_empty st now hq]
      exact pinnedView_mutateEach_ltp st.hot (recallTopConcepts st.hot "") now
    rw [allPinnedRules]
    exact allPinned_congr _ st.hot hview

/-- C9 (witness): the amended empty-query theorem applied to the
one-record store. -/
theorem C9_empty_query_amended_witness :
    (recallOp stC9 "" false 5 envOff 3).2 =
      Except.ok (recallBaseResult stC9 "" false envOff 3) ∧
    (recallBaseResult stC9 "" false envOff 3).activated_concepts =
      (jsSort (fun a b => weightOf stC9.hot b < weightOf stC9.hot a) (storeKeys stC9.hot)).take 5 ∧
    (recallBaseResult stC9 "" false envOff 3).search_results = [] ∧
    (recallBaseResult stC9 "" false envOff 3).pinned_rules = allPinnedRules stC9.hot :=
  C9_empty_query_amended stC9 5 envOff 3 rfl (by decide)

end BrainSynapse
